import Mathlib

/-!
# Sidekick64 SID-8 kernel (kernel_sid8.cpp): bus decoder, ring buffer, scheduler, mixer

A shallow embedding of the stand-alone build of `kernel_sid8.cpp`:

* `initSID8`                      (lines 97-131)
* the clock measurement of `Run`  (lines 267-276)
* the reset handling of `Run`     (lines 345-352)
* one pass of the catch-up loop   (lines 398-437), `emulationStep`
* the catch-up loop               (lines 377-544), `catchUp`
* the mixer                       (lines 446-463)
* the FIQ handler                 (lines 601-680), `FIQHandler`

Machine integers are natural numbers reduced modulo `2^32` / `2^64` where the
source computes in `u32` / `unsigned long long`.  The arrays `ringBufGPIO`,
`ringTime`, `outRegisters`, `sid`, `SID_MODEL`, `SID_DigiBoost` are total maps
from the index to the content.  The bus signals read through the macros of the
low-level header (`CPU_RESET`, `GET_ADDRESS0to7`, ...) are inputs of the
handler (`BusCycle`).  The build switch `USE_PWM_DIRECT` is a parameter of the
scheduler pass.  The parts compiled only with `COMPILE_MENU`, and the display,
latch, LED and sound-device code, are left out.
-/

namespace Sidekick64

/-! ## Constants and machine words -/

/-- `#define NUM_SIDS 8`. -/
def NUM_SIDS : Nat := 8

/-- `#define RING_SIZE (1024*128)`. -/
def RING_SIZE : Nat := 1024 * 128

/-- Number of values of a `u32`. -/
def U32 : Nat := 4294967296

/-- Number of values of an `unsigned long long`. -/
def U64 : Nat := 18446744073709551616

/-- Two's complement reduction of an integer to the range of an `s32`. -/
def wrapS32 (x : Int) : Int := (x + 2147483648) % 4294967296 - 2147483648

/-- Array store `a[i] = v`. -/
def store {α : Type} (a : Nat → α) (i : Nat) (v : α) : Nat → α :=
  fun j => if j = i then v else a j

/-! ## The tone generator -/

/-- The two chip models of reSID. -/
inductive chip_model where
  | MOS6581
  | MOS8580
  deriving DecidableEq, Repr

/-- Modelled from the spec: the tone generator instance (class `SID` of
`resid/sid.h`, an external collaborator of the kernel).  It accepts register
writes, read requests and "advance by N cycles"; here it is a register file
that keeps what was written, the configuration set by `initSID8`, and the
number of cycles it was advanced by. -/
structure SID where
  regs : Nat → Nat
  model : chip_model
  voice_mask : Nat
  ext_in : Int
  cycles : Nat

namespace SID

/-- Modelled from the spec: a newly constructed tone generator (`new SID`). -/
def fresh : SID :=
  { regs := fun _ => 0, model := chip_model.MOS6581, voice_mask := 0x07, ext_in := 0, cycles := 0 }

/-- Modelled from the spec: `write( offset, value )` stores the value. -/
def write (c : SID) (offset value : Nat) : SID :=
  { c with regs := store c.regs offset value }

/-- Modelled from the spec: `read( offset )` reads the register back. -/
def read (c : SID) (offset : Nat) : Nat := c.regs offset

/-- Modelled from the spec: `clock( delta )` advances the chip by `delta` cycles. -/
def clock (c : SID) (delta : Nat) : SID :=
  { c with cycles := c.cycles + delta }

/-- Modelled from the spec: `set_chip_model( model )`. -/
def set_chip_model (c : SID) (m : chip_model) : SID := { c with model := m }

/-- Modelled from the spec: `set_voice_mask( mask )`. -/
def set_voice_mask (c : SID) (mask : Nat) : SID := { c with voice_mask := mask }

/-- Modelled from the spec: `input( sample )`. -/
def input (c : SID) (sample : Int) : SID := { c with ext_in := sample }

end SID

/-! ## Program state -/

/-- The file-scope variables of `kernel_sid8.cpp` and the locals of `Run` that
live across iterations of the main loop. -/
structure State where
  CLOCKFREQ : Nat
  SAMPLERATE : Nat
  SID_MODEL : Nat → Nat
  SID_DigiBoost : Nat → Nat
  cfgRegisterRead : Nat
  sid : Nat → SID
  ringBufGPIO : Nat → Nat
  ringTime : Nat → Nat
  ringWrite : Nat
  ringRead : Nat
  outRegisters : Nat → Nat
  resetCounter : Nat
  resetPressed : Nat
  resetReleased : Nat
  cycleCountC64 : Nat
  nCyclesEmulated : Nat
  carrySamples : Nat

/-- The loop `for ( int j = 0; j < 24; j++ ) sid[ i ]->write( j, 0 );`. -/
def clearRegs (c : SID) : SID :=
  (List.range 24).foldl (fun c j => c.write j 0) c

/-- The loop `for ( int i = 0; i < NUM_SIDS; i++ ) for ( j < 24 ) sid[ i ]->write( j, 0 );`. -/
def clearAll (sid : Nat → SID) : Nat → SID :=
  fun i => if i < NUM_SIDS then clearRegs (sid i) else sid i

/-! ## initSID8 (lines 97-131) -/

/-- Body of the loop of `initSID8` for one instance: the chip is created, its
24 registers are written with zero and the chip model is chosen from
`SID_MODEL[ 0 ]` and `SID_DigiBoost[ 0 ]`. -/
def initChip (SID_MODEL SID_DigiBoost : Nat → Nat) : SID :=
  let c := clearRegs SID.fresh
  if SID_MODEL 0 % 3 = 6581 then
    c.set_chip_model chip_model.MOS6581
  else
    let c := c.set_chip_model chip_model.MOS8580
    if SID_DigiBoost 0 = 0 then
      (c.set_voice_mask 0x07).input 0
    else
      (c.set_voice_mask 0x0f).input (-32768)

/-- `void initSID8()`. -/
def initSID8 (s : State) : State :=
  { s with
    resetCounter := 0
    sid := fun i => if i < NUM_SIDS then initChip s.SID_MODEL s.SID_DigiBoost else s.sid i
    ringWrite := 0
    ringTime := fun i => if i < RING_SIZE then 0 else s.ringTime i }

/-! ## Clock measurement (lines 267-276) -/

/-- `clockFreq = cycleCountC64 * 1000000 / ( curTime - startTime )` in
`unsigned long long`. -/
def clockFreq (cycleCountC64 startTime curTime : Nat) : Nat :=
  (cycleCountC64 * 1000000 % U64) / ((curTime + U64 - startTime) % U64)

/-- `CLOCKFREQ = clockFreq;`: the quotient stored in the `u32`. -/
def measuredCLOCKFREQ (cycleCountC64 startTime curTime : Nat) : Nat :=
  clockFreq cycleCountC64 startTime curTime % U32

/-! ## Reset handling of the main loop (lines 345-352) -/

/-- `if ( resetCounter > 3 && resetReleased ) { ... }`. -/
def resetAction (s : State) : State :=
  if s.resetCounter > 3 ∧ s.resetReleased ≠ 0 then
    { s with resetCounter := 0, sid := clearAll s.sid }
  else s

/-! ## The mixer (lines 446-463) -/

/-- One channel: `( a + b + c + d ) >> 1` on `s32`, then
`max( -32767, min( 32767, x ) )`. -/
def mixChannel (a b c d : Int) : Int :=
  max (-32767) (min 32767 (wrapS32 (a + b + c + d) >>> 1))

/-- The mixer: `out i` is `sid[ i ]->output()`; the result is `(left, right)`. -/
def mixer (out : Nat → Int) : Int × Int :=
  (mixChannel (out 1) (out 3) (out 5) (out 7), mixChannel (out 0) (out 2) (out 4) (out 6))

/-! ## Ring buffer entries -/

/-- A register write as the decoder enqueues it. -/
structure BusEvent where
  whichSID : Nat
  A : Nat
  D : Nat
  atCycle : Nat
  deriving DecidableEq, Repr

/-- `D | (A << 8) | (whichSID << 16)` stored in a `u32`. -/
def packEntry (D A whichSID : Nat) : Nat :=
  (D ||| (A <<< 8) ||| (whichSID <<< 16)) % U32

/-- `D = rv & 255` (an `unsigned char`). -/
def entryD (rv : Nat) : Nat := (rv &&& 255) % 256

/-- `A = (rv>>8)&31` (an `unsigned char`). -/
def entryA (rv : Nat) : Nat := ((rv >>> 8) &&& 31) % 256

/-- `whichSID = rv >> 16`. -/
def entrySID (rv : Nat) : Nat := rv >>> 16

/-! ## The FIQ handler (lines 601-680) -/

/-- The bus signals of one C64 bus cycle, as the macros of the low-level
header deliver them to the handler. -/
structure BusCycle where
  CPU_RESET : Bool
  CPU_READS_FROM_BUS : Bool
  CPU_WRITES_TO_BUS : Bool
  SID_ACCESS : Bool
  ADDRESS0to7 : Nat
  ADDRESS8to12 : Nat
  D0to7 : Nat

/-- What the handler did with the cycle. -/
inductive BusResult where
  | idle
  | read (D : Nat)
  | write (e : BusEvent)

/-- Lines 603-608: sampling of the reset line. -/
def sampleReset (s : State) (CPU_RESET : Bool) : State :=
  if CPU_RESET then
    { s with resetReleased := 0, resetPressed := 1, resetCounter := (s.resetCounter + 1) % U32 }
  else
    { s with resetReleased := if s.resetPressed ≠ 0 then 1 else s.resetReleased, resetPressed := 0 }

/-- Line 662: `A = GET_ADDRESS0to7 | ((GET_ADDRESS8to12&1)<<8)`. -/
def busAddress (ADDRESS0to7 ADDRESS8to12 : Nat) : Nat :=
  ADDRESS0to7 ||| ((ADDRESS8to12 &&& 1) <<< 8)

/-- Line 663: `whichSID = ((A>>6)&6) | ((A>>5)&1)`. -/
def decodeSID (A : Nat) : Nat := ((A >>> 6) &&& 6) ||| ((A >>> 5) &&& 1)

/-- Line 664: `A &= 31`. -/
def decodeReg (A : Nat) : Nat := A &&& 31

/-- Lines 660-671: the write branch of the handler.  The data byte, the
register and the chip index are packed into the ring buffer at `ringWrite`
together with the cycle count, and the write index moves on. -/
def enqueueWrite (s : State) (b : BusCycle) : State × BusResult :=
  let D := b.D0to7
  let A := busAddress b.ADDRESS0to7 b.ADDRESS8to12
  let whichSID := decodeSID A
  let A := decodeReg A
  ({ s with
      ringBufGPIO := store s.ringBufGPIO s.ringWrite (packEntry D A whichSID)
      ringTime := store s.ringTime s.ringWrite s.cycleCountC64
      ringWrite := ((s.ringWrite + 1) % U32) &&& (RING_SIZE - 1) },
    BusResult.write ⟨whichSID, A, D, s.cycleCountC64⟩)

/-- Line 614: `cycleCountC64 ++`. -/
def countCycle (s : State) : State :=
  { s with cycleCountC64 := (s.cycleCountC64 + 1) % U64 }

/-- `CKernel::FIQHandler`: reset sampling, cycle counter, register read from
`outRegisters`, register write into the ring buffer. -/
def FIQHandler (s : State) (b : BusCycle) : State × BusResult :=
  let s := countCycle (sampleReset s b.CPU_RESET)
  if s.cfgRegisterRead ≠ 0 ∧ b.CPU_READS_FROM_BUS = true ∧ b.SID_ACCESS = true then
    (s, BusResult.read (s.outRegisters (b.ADDRESS0to7 &&& 31)))
  else if b.CPU_WRITES_TO_BUS = true ∧ b.SID_ACCESS = true then
    enqueueWrite s b
  else
    (s, BusResult.idle)

/-! ## One pass of the catch-up loop (lines 398-437) -/

/-- A register write as the scheduler applies it: the unpacked ring entry, its
time stamp and the value of `nCyclesEmulated` at the application. -/
structure Applied where
  whichSID : Nat
  A : Nat
  D : Nat
  atCycle : Nat
  cyclesEmulated : Nat
  deriving DecidableEq, Repr

/-- The event an application stands for. -/
def Applied.event (a : Applied) : BusEvent := ⟨a.whichSID, a.A, a.D, a.atCycle⟩

/-- Line 401: `samplesToEmulateX65536`, computed in `unsigned long long` and
stored in a `u32`. -/
def samplesX65536 (CLOCKFREQ SAMPLERATE carrySamples : Nat) : Nat :=
  (((65536 * CLOCKFREQ) % U64 / SAMPLERATE + carrySamples) % U64) % U32

/-- Lines 401-404: the samples due in this pass and the carry kept for the next. -/
def carryStep (CLOCKFREQ SAMPLERATE carrySamples : Nat) : Nat × Nat :=
  let x := samplesX65536 CLOCKFREQ SAMPLERATE carrySamples
  (x >>> 16, x &&& 65535)

/-- Lines 407-411: `cyclesToEmulate`. -/
def cyclesToEmulate (USE_PWM_DIRECT : Bool) (samplesToEmulate : Nat) : Nat :=
  if USE_PWM_DIRECT then samplesToEmulate else 2

/-- Lines 400-419: the carry, the clocking of the eight chips by
`cyclesToEmulate`, the refresh of `outRegisters` from chip 0, and
`nCyclesEmulated += cyclesToEmulate`. -/
def advance (USE_PWM_DIRECT : Bool) (s : State) : State :=
  let sc := carryStep s.CLOCKFREQ s.SAMPLERATE s.carrySamples
  let cyc := cyclesToEmulate USE_PWM_DIRECT sc.1
  let sid : Nat → SID := fun i => if i < NUM_SIDS then (s.sid i).clock cyc else s.sid i
  { s with
    carrySamples := sc.2
    sid := sid
    outRegisters := store (store s.outRegisters 27 ((sid 0).read 27)) 28 ((sid 0).read 28)
    nCyclesEmulated := (s.nCyclesEmulated + cyc) % U64 }

/-- Lines 426-436: the entry at `ringRead` is unpacked and written to the chip
it names, and the read index moves on.  (The entries the handler stores name
a chip below `NUM_SIDS`; the map `sid` is total, so no index is out of range
here.) -/
def applyEntry (s : State) : State × Option Applied :=
  let rv := s.ringBufGPIO s.ringRead
  let D := entryD rv
  let A := entryA rv
  let whichSID := entrySID rv
  ({ s with
      sid := store s.sid whichSID ((s.sid whichSID).write A D)
      ringRead := ((s.ringRead + 1) % U32) &&& (RING_SIZE - 1) },
    some ⟨whichSID, A, D, s.ringTime s.ringRead, s.nCyclesEmulated⟩)

/-- Lines 422-437: if the ring buffer is not read up to `ringWrite` and the
entry at `ringRead` is due, it is applied. -/
def drainOne (s : State) : State × Option Applied :=
  let readUpTo := s.ringWrite
  if s.ringRead ≠ readUpTo ∧ s.nCyclesEmulated ≥ s.ringTime s.ringRead then
    applyEntry s
  else
    (s, none)

/-- One pass of the body of `while ( cycleCount > nCyclesEmulated )`, up to
the mixer: carry, clocking of the eight chips, `outRegisters`, and at most
one register write taken from the ring buffer. -/
def emulationStep (USE_PWM_DIRECT : Bool) (s : State) : State × Option Applied :=
  drainOne (advance USE_PWM_DIRECT s)

/-! ## Interleavings of the two contexts -/

/-- What happens next: the FIQ handler runs for a bus cycle, the main loop
does its reset check, or the catch-up loop makes one pass.  A run of the
handler and a pass of the loop are each taken as one step. -/
inductive Action where
  | bus (b : BusCycle)
  | resetCheck
  | step

/-- A state together with the register writes enqueued and applied so far. -/
structure Trace where
  state : State
  enqueued : List BusEvent
  applied : List Applied

/-- A state with nothing recorded. -/
def Trace.start (s : State) : Trace := ⟨s, [], []⟩

/-- The outcome of a bus cycle recorded: a write is appended to `enqueued`. -/
def Trace.recordBus (t : Trace) (r : State × BusResult) : Trace :=
  match r.2 with
  | BusResult.write e => ⟨r.1, t.enqueued ++ [e], t.applied⟩
  | _ => ⟨r.1, t.enqueued, t.applied⟩

/-- The outcome of a pass recorded: an application is appended to `applied`. -/
def Trace.recordStep (t : Trace) (r : State × Option Applied) : Trace :=
  match r.2 with
  | some a => ⟨r.1, t.enqueued, t.applied ++ [a]⟩
  | none => ⟨r.1, t.enqueued, t.applied⟩

/-- One action on a trace. -/
def Trace.next (USE_PWM_DIRECT : Bool) (t : Trace) : Action → Trace
  | Action.bus b => t.recordBus (FIQHandler t.state b)
  | Action.resetCheck => ⟨resetAction t.state, t.enqueued, t.applied⟩
  | Action.step => t.recordStep (emulationStep USE_PWM_DIRECT t.state)

/-- A sequence of actions on a trace. -/
def run (USE_PWM_DIRECT : Bool) (t : Trace) (as : List Action) : Trace :=
  as.foldl (Trace.next USE_PWM_DIRECT) t

/-! ## The content of the ring buffer as the scheduler sees it -/

/-- Number of entries between the read index and the write index. -/
def pendingCount (s : State) : Nat :=
  (s.ringWrite + RING_SIZE - s.ringRead) % RING_SIZE

/-- The ring entry in slot `j`, unpacked as the scheduler unpacks it. -/
def slotEvent (buf time : Nat → Nat) (j : Nat) : BusEvent :=
  ⟨entrySID (buf j), entryA (buf j), entryD (buf j), time j⟩

/-- The entries from read index `r` up to write index `w`, in the order the
scheduler takes them. -/
def pendingOf (buf time : Nat → Nat) (r w : Nat) : List BusEvent :=
  (List.range ((w + RING_SIZE - r) % RING_SIZE)).map
    (fun i => slotEvent buf time ((r + i) % RING_SIZE))

/-- The entries the scheduler can take from the ring buffer of a state. -/
def pendingEvents (s : State) : List BusEvent :=
  pendingOf s.ringBufGPIO s.ringTime s.ringRead s.ringWrite

/-- The invariant of the two contexts: the indices are in range, the events
enqueued after `base` are those applied followed by those pending, and every
application happened at or after the time stamp of its event. -/
def RingInv (base : List BusEvent) (t : Trace) : Prop :=
  t.state.ringRead < RING_SIZE ∧ t.state.ringWrite < RING_SIZE
  ∧ t.enqueued = base ++ t.applied.map Applied.event ++ pendingEvents t.state
  ∧ ∀ a ∈ t.applied, a.atCycle ≤ a.cyclesEmulated

/-- Number of events enqueued and not yet applied. -/
def unread (t : Trace) : Nat := t.enqueued.length - t.applied.length

/-- The number of unread events stays below the ring capacity after every
action of the sequence. -/
def NoOverflow (USE_PWM_DIRECT : Bool) : Trace → List Action → Prop
  | _, [] => True
  | t, a :: as =>
    unread (t.next USE_PWM_DIRECT a) < RING_SIZE
      ∧ NoOverflow USE_PWM_DIRECT (t.next USE_PWM_DIRECT a) as

/-- A bus cycle in which the CPU writes to the SID address range. -/
def isWriteCycle (b : BusCycle) : Prop :=
  b.CPU_READS_FROM_BUS = false ∧ b.CPU_WRITES_TO_BUS = true ∧ b.SID_ACCESS = true

/-! ## Start of the emulation -/

/-- The variables as the initializers of the source leave them at program
start (static storage is zero); `cfgRegisterRead` is defined in another file. -/
def powerOn (cfgRegisterRead : Nat) : State :=
  { CLOCKFREQ := 985248
    SAMPLERATE := 44100
    SID_MODEL := fun _ => 8580
    SID_DigiBoost := fun _ => 0
    cfgRegisterRead := cfgRegisterRead
    sid := fun _ => SID.fresh
    ringBufGPIO := fun _ => 0
    ringTime := fun _ => 0
    ringWrite := 0
    ringRead := 0
    outRegisters := fun _ => 0
    resetCounter := 0
    resetPressed := 0
    resetReleased := 0
    cycleCountC64 := 0
    nCyclesEmulated := 0
    carrySamples := 0 }

/-- Lines 324-329 of `Run`: counters and read index to zero, the 24 registers
of every chip written with zero. -/
def startEmulation (s : State) : State :=
  { s with
    resetCounter := 0
    cycleCountC64 := 0
    nCyclesEmulated := 0
    ringRead := 0
    sid := clearAll s.sid }

/-- The state in which the main loop starts when no bus cycle came before. -/
def startState (cfgRegisterRead : Nat) : State :=
  startEmulation (initSID8 (powerOn cfgRegisterRead))

/-! ## Reset sampling over several bus cycles -/

/-- The condition of the reset handling, `resetCounter > 3 && resetReleased`. -/
def resetCondition (s : State) : Prop := s.resetCounter > 3 ∧ s.resetReleased ≠ 0

instance (s : State) : Decidable (resetCondition s) := by
  unfold resetCondition
  exact inferInstance

/-- The FIQ handler run for a sequence of bus cycles. -/
def handleAll (s : State) (bs : List BusCycle) : State :=
  bs.foldl (fun s b => (FIQHandler s b).1) s

/-- Number of bus cycles of the sequence in which the reset line is asserted. -/
def assertedCycles (bs : List BusCycle) : Nat :=
  (bs.filter (fun b => b.CPU_RESET)).length

/-- Length of the longest stable assertion of the reset line in a sequence of
samples: the longest run of consecutive asserted samples. -/
def longestAssertion (samples : List Bool) : Nat :=
  (samples.foldl
    (fun (p : Nat × Nat) b => if b then (p.1 + 1, max p.2 (p.1 + 1)) else (0, p.2)) (0, 0)).2

/-! ## The carry over several passes -/

/-- The samples due in `n` consecutive passes, summed, and the carry left
after them, starting from carry `c`. -/
def carryRun (CLOCKFREQ SAMPLERATE : Nat) : Nat → Nat → Nat × Nat
  | 0, c => (0, c)
  | n + 1, c =>
    let r := carryStep CLOCKFREQ SAMPLERATE c
    let rest := carryRun CLOCKFREQ SAMPLERATE n r.2
    (r.1 + rest.1, rest.2)

/-! ## The catch-up loop (lines 377-544) -/

/-- The loop `while ( cycleCount > nCyclesEmulated ) { ... }` of the main loop,
where `cycleCount` is the value of `cycleCountC64` sampled before the loop.
Every turn is one pass (`emulationStep`).  The result is the state in which
the loop ends and the number of passes it made; `none` when the loop has not
ended after `fuel` passes. -/
def catchUp (USE_PWM_DIRECT : Bool) (cycleCount : Nat) : Nat → State → Option (State × Nat)
  | 0, s => if cycleCount > s.nCyclesEmulated then none else some (s, 0)
  | fuel + 1, s =>
    if cycleCount > s.nCyclesEmulated then
      (catchUp USE_PWM_DIRECT cycleCount fuel (emulationStep USE_PWM_DIRECT s).1).map
        (fun r => (r.1, r.2 + 1))
    else
      some (s, 0)

/-! ## The documented address mapping -/

/-- The address mapping in the words of the specification, read from the chip
index and register to the address bits: the register in bits 0-4, bit 0 of the
chip index in address bit 5, bits 1-2 of the chip index in address bits 7-8. -/
def encodeAddress (chipIndex register : Nat) : Nat :=
  register ||| ((chipIndex &&& 1) <<< 5) ||| ((chipIndex >>> 1) <<< 7)

/-! ## Theorems -/

/-! ### Mixer -/

theorem wrapS32_of_range (x : Int) (h1 : -2147483648 ≤ x) (h2 : x < 2147483648) :
    wrapS32 x = x := by
  unfold wrapS32
  omega

theorem mixChannel_spec (a b c d : Int)
    (ha : -32768 ≤ a ∧ a ≤ 32767) (hb : -32768 ≤ b ∧ b ≤ 32767)
    (hc : -32768 ≤ c ∧ c ≤ 32767) (hd : -32768 ≤ d ∧ d ≤ 32767) :
    mixChannel a b c d = max (-32767) (min 32767 ((a + b + c + d) >>> 1))
    ∧ (-32767 : Int) ≤ mixChannel a b c d ∧ mixChannel a b c d ≤ (32767 : Int)
    ∧ ((-32767 : Int) ≤ (a + b + c + d) >>> 1 → (a + b + c + d) >>> 1 ≤ (32767 : Int) →
        mixChannel a b c d = (a + b + c + d) >>> 1) := by
  have hw : wrapS32 (a + b + c + d) = a + b + c + d :=
    wrapS32_of_range _ (by omega) (by omega)
  unfold mixChannel
  rw [hw]
  refine ⟨rfl, le_max_left _ _, max_le (by norm_num) (min_le_left _ _), ?_⟩
  intro h1 h2
  rw [min_eq_right h2, max_eq_right h1]

/-- C1: for eight chip outputs in [-32768, 32767] the mixer yields
left = clamp((out 1 + out 3 + out 5 + out 7) >> 1) and
right = clamp((out 0 + out 2 + out 4 + out 6) >> 1) with the arithmetic shift
and clamp(x) = max(-32767, min(32767, x)); both lie in [-32767, 32767] and
each equals the unclamped sum-and-shift when that already lies in that range. -/
theorem mixer_clipping (out : Nat → Int)
    (h : ∀ i, i < 8 → -32768 ≤ out i ∧ out i ≤ 32767) :
    (mixer out).1 = max (-32767) (min 32767 ((out 1 + out 3 + out 5 + out 7) >>> 1))
    ∧ (mixer out).2 = max (-32767) (min 32767 ((out 0 + out 2 + out 4 + out 6) >>> 1))
    ∧ ((-32767 : Int) ≤ (mixer out).1 ∧ (mixer out).1 ≤ (32767 : Int))
    ∧ ((-32767 : Int) ≤ (mixer out).2 ∧ (mixer out).2 ≤ (32767 : Int))
    ∧ ((-32767 : Int) ≤ (out 1 + out 3 + out 5 + out 7) >>> 1 →
        (out 1 + out 3 + out 5 + out 7) >>> 1 ≤ (32767 : Int) →
        (mixer out).1 = (out 1 + out 3 + out 5 + out 7) >>> 1)
    ∧ ((-32767 : Int) ≤ (out 0 + out 2 + out 4 + out 6) >>> 1 →
        (out 0 + out 2 + out 4 + out 6) >>> 1 ≤ (32767 : Int) →
        (mixer out).2 = (out 0 + out 2 + out 4 + out 6) >>> 1) := by
  have hl := mixChannel_spec (out 1) (out 3) (out 5) (out 7)
    (h 1 (by norm_num)) (h 3 (by norm_num)) (h 5 (by norm_num)) (h 7 (by norm_num))
  have hr := mixChannel_spec (out 0) (out 2) (out 4) (out 6)
    (h 0 (by norm_num)) (h 2 (by norm_num)) (h 4 (by norm_num)) (h 6 (by norm_num))
  exact ⟨hl.1, hr.1, ⟨hl.2.1, hl.2.2.1⟩, ⟨hr.2.1, hr.2.2.1⟩, hl.2.2.2, hr.2.2.2⟩

/-- Witness of C1: the odd chips at full positive scale, the even chips at full
negative scale; the left channel is clipped to 32767, the right to -32767. -/
theorem mixer_clipping_witness :
    (mixer (fun i => if i % 2 = 1 then 32767 else -32768)).1 = 32767
    ∧ (mixer (fun i => if i % 2 = 1 then 32767 else -32768)).2 = -32767 := by
  have h := mixer_clipping (fun i => if i % 2 = 1 then 32767 else -32768)
    (by intro i _; by_cases hi : i % 2 = 1 <;> simp [hi])
  exact ⟨h.1.trans (by decide), h.2.1.trans (by decide)⟩

/-! ### Address decoding -/

theorem busAddress_lt (a07 a812 : Nat) (h : a07 < 256) : busAddress a07 a812 < 512 := by
  unfold busAddress
  have h1 : a812 &&& 1 = a812 % 2 := Nat.and_one_is_mod a812
  have h2 : (a812 &&& 1) <<< 8 < 2 ^ 9 := by
    rw [h1, Nat.shiftLeft_eq]
    have := Nat.mod_lt a812 (by norm_num : 2 > 0)
    omega
  exact Nat.or_lt_two_pow (by omega) h2

set_option maxRecDepth 100000 in
theorem decode_all : ∀ A, A < 512 →
    decodeSID A < 8 ∧ decodeReg A < 32 ∧
    decodeSID (encodeAddress (decodeSID A) (decodeReg A)) = decodeSID A ∧
    decodeReg (encodeAddress (decodeSID A) (decodeReg A)) = decodeReg A := by
  decide

/-- C2: for every address the decoder builds from A0-A7 (0-255) and A8, the
address is below 512, the chip index ((A>>6)&6) | ((A>>5)&1) is in 0..7, the
register A & 31 is in 0..31, and encoding the pair by the documented mapping
and decoding again gives the same chip index and register. -/
theorem address_roundtrip (a07 a812 : Nat) (h : a07 < 256) :
    busAddress a07 a812 < 512
    ∧ decodeSID (busAddress a07 a812) < 8
    ∧ decodeReg (busAddress a07 a812) < 32
    ∧ decodeSID (encodeAddress (decodeSID (busAddress a07 a812))
        (decodeReg (busAddress a07 a812))) = decodeSID (busAddress a07 a812)
    ∧ decodeReg (encodeAddress (decodeSID (busAddress a07 a812))
        (decodeReg (busAddress a07 a812))) = decodeReg (busAddress a07 a812) :=
  ⟨busAddress_lt a07 a812 h, decode_all _ (busAddress_lt a07 a812 h)⟩

/-- Witness of C2: address lines A0-A7 = 0xE5 with A8 set decode to chip 7,
register 5. -/
theorem address_roundtrip_witness :
    decodeSID (busAddress 0xE5 1) = 7 ∧ decodeReg (busAddress 0xE5 1) = 5
    ∧ decodeSID (encodeAddress (decodeSID (busAddress 0xE5 1))
        (decodeReg (busAddress 0xE5 1))) = decodeSID (busAddress 0xE5 1) :=
  ⟨by decide, by decide, (address_roundtrip 0xE5 1 (by decide)).2.2.2.1⟩

/-! ### The ring buffer -/

theorem RING_SIZE_eq : RING_SIZE = 131072 := rfl

theorem and_mask (x : Nat) : x &&& (RING_SIZE - 1) = x % RING_SIZE := by
  have h := Nat.and_pow_two_sub_one_eq_mod x 17
  have e : RING_SIZE = 2 ^ 17 := by rw [RING_SIZE_eq]; norm_num
  rw [e]; exact h

theorem ringInc (x : Nat) : ((x + 1) % U32) &&& (RING_SIZE - 1) = (x + 1) % RING_SIZE := by
  rw [and_mask]
  simp only [U32, RING_SIZE_eq]
  omega

theorem or_eq_add (D A w : Nat) (hD : D < 256) (hA : A < 256) :
    D ||| (A <<< 8) ||| (w <<< 16) = D + A * 256 + w * 65536 := by
  have h1 : D ||| (A <<< 8) = 2 ^ 8 * A + D := by
    rw [Nat.mul_add_lt_is_or (by omega) A, Nat.shiftLeft_eq, Nat.lor_comm, Nat.mul_comm]
  have h2 : (2 ^ 8 * A + D) ||| (w <<< 16) = 2 ^ 16 * w + (2 ^ 8 * A + D) := by
    rw [Nat.mul_add_lt_is_or (by omega) w, Nat.shiftLeft_eq, Nat.lor_comm, Nat.mul_comm]
  rw [h1, h2]
  omega

theorem packEntry_eq (D A w : Nat) (hD : D < 256) (hA : A < 256) (hw : w < 65536) :
    packEntry D A w = D + A * 256 + w * 65536 := by
  unfold packEntry
  rw [or_eq_add D A w hD hA]
  simp only [U32]
  omega

theorem entryD_eq (rv : Nat) : entryD rv = rv % 256 := by
  unfold entryD
  have := Nat.and_pow_two_sub_one_eq_mod rv 8
  norm_num at this
  rw [this]; omega

theorem entryA_eq (rv : Nat) : entryA rv = rv / 256 % 32 := by
  unfold entryA
  have := Nat.and_pow_two_sub_one_eq_mod (rv >>> 8) 5
  norm_num at this
  rw [this, Nat.shiftRight_eq_div_pow]
  omega

theorem entrySID_eq (rv : Nat) : entrySID rv = rv / 65536 := by
  unfold entrySID
  rw [Nat.shiftRight_eq_div_pow]

theorem unpack_pack (D A w : Nat) (hD : D < 256) (hA : A < 32) (hw : w < 65536) :
    entrySID (packEntry D A w) = w ∧ entryA (packEntry D A w) = A
    ∧ entryD (packEntry D A w) = D := by
  rw [entrySID_eq, entryA_eq, entryD_eq, packEntry_eq D A w hD (by omega) hw]
  omega

theorem decodeSID_lt (A : Nat) : decodeSID A < 8 := by
  unfold decodeSID
  have h1 : (A >>> 6) &&& 6 < 2 ^ 3 := by
    have := @Nat.and_le_right (A >>> 6) 6
    omega
  have h2 : (A >>> 5) &&& 1 < 2 ^ 3 := by
    have := @Nat.and_le_right (A >>> 5) 1
    omega
  exact Nat.or_lt_two_pow h1 h2

theorem decodeReg_lt (A : Nat) : decodeReg A < 32 := by
  unfold decodeReg
  have := @Nat.and_le_right A 31
  omega

theorem pendingOf_length (buf time : Nat → Nat) (r w : Nat) :
    (pendingOf buf time r w).length = (w + RING_SIZE - r) % RING_SIZE := by
  simp [pendingOf]

theorem pendingOf_empty (buf time : Nat → Nat) (r : Nat) :
    pendingOf buf time r r = [] := by
  have h : (r + RING_SIZE - r) % RING_SIZE = 0 := by
    simp only [RING_SIZE_eq]
    omega
  simp [pendingOf, h]

theorem pendingOf_pop (buf time : Nat → Nat) (r w : Nat) (hr : r < RING_SIZE)
    (hw : w < RING_SIZE) (hne : r ≠ w) :
    pendingOf buf time r w
      = slotEvent buf time r :: pendingOf buf time ((r + 1) % RING_SIZE) w := by
  have hc : (w + RING_SIZE - r) % RING_SIZE
      = (w + RING_SIZE - (r + 1) % RING_SIZE) % RING_SIZE + 1 := by
    simp only [RING_SIZE_eq] at hr hw ⊢
    omega
  unfold pendingOf
  rw [hc, List.range_succ_eq_map, List.map_cons, List.map_map]
  have h0 : (r + 0) % RING_SIZE = r := by
    simp only [RING_SIZE_eq] at hr ⊢
    omega
  rw [h0]
  congr 1
  apply List.map_congr_left
  intro i _
  have : (r + (i + 1)) % RING_SIZE = ((r + 1) % RING_SIZE + i) % RING_SIZE := by
    simp only [RING_SIZE_eq]
    omega
  simp [this]

theorem pendingOf_push (buf time : Nat → Nat) (r w x c : Nat) (hr : r < RING_SIZE)
    (hw : w < RING_SIZE) (hroom : (w + RING_SIZE - r) % RING_SIZE + 1 < RING_SIZE) :
    pendingOf (store buf w x) (store time w c) r ((w + 1) % RING_SIZE)
      = pendingOf buf time r w ++ [slotEvent (store buf w x) (store time w c) w] := by
  have hc : ((w + 1) % RING_SIZE + RING_SIZE - r) % RING_SIZE
      = (w + RING_SIZE - r) % RING_SIZE + 1 := by
    simp only [RING_SIZE_eq] at hr hw hroom ⊢
    omega
  unfold pendingOf
  rw [hc, List.range_succ, List.map_append, List.map_cons, List.map_nil]
  have hlast : (r + (w + RING_SIZE - r) % RING_SIZE) % RING_SIZE = w := by
    simp only [RING_SIZE_eq] at hr hw hroom ⊢
    omega
  rw [hlast]
  congr 1
  apply List.map_congr_left
  intro i hi
  have hi2 : i < (w + RING_SIZE - r) % RING_SIZE := List.mem_range.mp hi
  have hne : (r + i) % RING_SIZE ≠ w := by
    simp only [RING_SIZE_eq] at hr hw hroom hi2 ⊢
    omega
  simp [slotEvent, store, hne]

theorem sampleReset_ring (s : State) (r : Bool) :
    (sampleReset s r).ringRead = s.ringRead ∧ (sampleReset s r).ringWrite = s.ringWrite
    ∧ State.ringBufGPIO (sampleReset s r) = s.ringBufGPIO ∧ (sampleReset s r).ringTime = s.ringTime
    ∧ (sampleReset s r).cycleCountC64 = s.cycleCountC64
    ∧ (sampleReset s r).cfgRegisterRead = s.cfgRegisterRead := by
  unfold sampleReset
  cases r <;> simp

/-- What the FIQ handler does to the ring buffer. -/
theorem FIQHandler_ring (s : State) (b : BusCycle) :
    (FIQHandler s b).1.ringRead = s.ringRead ∧
    ((∃ e, (FIQHandler s b).2 = BusResult.write e
        ∧ e = ⟨decodeSID (busAddress b.ADDRESS0to7 b.ADDRESS8to12),
              decodeReg (busAddress b.ADDRESS0to7 b.ADDRESS8to12), b.D0to7,
              (s.cycleCountC64 + 1) % U64⟩
        ∧ State.ringBufGPIO (FIQHandler s b).1 = store s.ringBufGPIO s.ringWrite
            (packEntry e.D e.A e.whichSID)
        ∧ (FIQHandler s b).1.ringTime = store s.ringTime s.ringWrite e.atCycle
        ∧ (FIQHandler s b).1.ringWrite = (s.ringWrite + 1) % RING_SIZE)
     ∨ ((∀ e, (FIQHandler s b).2 ≠ BusResult.write e)
        ∧ State.ringBufGPIO (FIQHandler s b).1 = s.ringBufGPIO
        ∧ (FIQHandler s b).1.ringTime = s.ringTime
        ∧ (FIQHandler s b).1.ringWrite = s.ringWrite)) := by
  obtain ⟨h1, h2, h3, h4, h5, -⟩ := sampleReset_ring s b.CPU_RESET
  unfold FIQHandler
  dsimp only
  split_ifs with c1 c2
  · simp [countCycle, h1, h2, h3, h4]
  · simp [enqueueWrite, countCycle, h1, h2, h3, h4, h5, ringInc]
  · simp [countCycle, h1, h2, h3, h4]

theorem drainOne_ring (s : State) :
    State.ringBufGPIO (drainOne s).1 = s.ringBufGPIO ∧
    (drainOne s).1.ringTime = s.ringTime ∧
    (drainOne s).1.ringWrite = s.ringWrite ∧
    ((∃ a, (drainOne s).2 = some a
        ∧ s.ringRead ≠ s.ringWrite
        ∧ a.event = slotEvent s.ringBufGPIO s.ringTime s.ringRead
        ∧ a.atCycle ≤ a.cyclesEmulated
        ∧ (drainOne s).1.ringRead = (s.ringRead + 1) % RING_SIZE)
     ∨ ((drainOne s).2 = none
        ∧ (drainOne s).1.ringRead = s.ringRead)) := by
  unfold drainOne
  dsimp only
  split_ifs with h
  · exact ⟨rfl, rfl, rfl, Or.inl ⟨_, rfl, h.1, rfl, h.2, ringInc _⟩⟩
  · exact ⟨rfl, rfl, rfl, Or.inr ⟨rfl, rfl⟩⟩

theorem advance_ring (pwm : Bool) (s : State) :
    (advance pwm s).ringRead = s.ringRead ∧ (advance pwm s).ringWrite = s.ringWrite
    ∧ State.ringBufGPIO (advance pwm s) = s.ringBufGPIO ∧ (advance pwm s).ringTime = s.ringTime :=
  ⟨rfl, rfl, rfl, rfl⟩

/-- What one pass of the catch-up loop does to the ring buffer. -/
theorem emulationStep_ring (pwm : Bool) (s : State) :
    State.ringBufGPIO (emulationStep pwm s).1 = s.ringBufGPIO ∧
    (emulationStep pwm s).1.ringTime = s.ringTime ∧
    (emulationStep pwm s).1.ringWrite = s.ringWrite ∧
    ((∃ a, (emulationStep pwm s).2 = some a
        ∧ s.ringRead ≠ s.ringWrite
        ∧ a.event = slotEvent s.ringBufGPIO s.ringTime s.ringRead
        ∧ a.atCycle ≤ a.cyclesEmulated
        ∧ (emulationStep pwm s).1.ringRead = (s.ringRead + 1) % RING_SIZE)
     ∨ ((emulationStep pwm s).2 = none
        ∧ (emulationStep pwm s).1.ringRead = s.ringRead)) := by
  have h := drainOne_ring (advance pwm s)
  obtain ⟨a1, a2, a3, a4⟩ := advance_ring pwm s
  rw [a1, a2, a3, a4] at h
  exact h

theorem resetAction_ring (s : State) :
    (resetAction s).ringRead = s.ringRead ∧ (resetAction s).ringWrite = s.ringWrite
    ∧ State.ringBufGPIO (resetAction s) = s.ringBufGPIO ∧ (resetAction s).ringTime = s.ringTime := by
  unfold resetAction
  split_ifs <;> exact ⟨rfl, rfl, rfl, rfl⟩

theorem pendingEvents_length (s : State) : (pendingEvents s).length = pendingCount s := by
  unfold pendingEvents pendingCount
  exact pendingOf_length _ _ _ _

theorem RingInv_next (pwm : Bool) (base : List BusEvent) (t : Trace) (a : Action)
    (hinv : RingInv base t) (hD : ∀ b, a = Action.bus b → b.D0to7 < 256)
    (hroom : (t.next pwm a).enqueued.length
      < base.length + (t.next pwm a).applied.length + RING_SIZE) :
    RingInv base (t.next pwm a) := by
  obtain ⟨hr, hw, henq, htime⟩ := hinv
  have hlen : t.enqueued.length = base.length + t.applied.length + pendingCount t.state := by
    rw [henq, List.length_append, List.length_append, List.length_map, pendingEvents_length]
  cases a with
  | bus b =>
    obtain ⟨h1, h2⟩ := FIQHandler_ring t.state b
    rcases h2 with ⟨e, he, hev, hbuf, htm, hwr⟩ | ⟨hne, hbuf, htm, hwr⟩
    · have hnext : t.next pwm (Action.bus b)
          = ⟨(FIQHandler t.state b).1, t.enqueued ++ [e], t.applied⟩ := by
        show t.recordBus (FIQHandler t.state b) = _
        unfold Trace.recordBus
        rw [he]
      rw [hnext] at hroom ⊢
      simp only [List.length_append, List.length_singleton] at hroom
      have hroom2 : (t.state.ringWrite + RING_SIZE - t.state.ringRead) % RING_SIZE + 1
          < RING_SIZE := by
        unfold pendingCount at hlen
        omega
      have hD2 := hD b rfl
      have hslot : slotEvent (store t.state.ringBufGPIO t.state.ringWrite
            (packEntry e.D e.A e.whichSID))
          (store t.state.ringTime t.state.ringWrite e.atCycle) t.state.ringWrite = e := by
        have hu := unpack_pack e.D e.A e.whichSID (by rw [hev]; exact hD2)
          (by rw [hev]; exact decodeReg_lt _)
          (by rw [hev]; exact lt_trans (decodeSID_lt _) (by norm_num))
        simp [slotEvent, store, hu.1, hu.2.1, hu.2.2]
      refine ⟨by rw [h1]; exact hr, ?_, ?_, htime⟩
      · show (FIQHandler t.state b).1.ringWrite < RING_SIZE
        rw [hwr]
        exact Nat.mod_lt _ (by rw [RING_SIZE_eq]; norm_num)
      · show t.enqueued ++ [e] = base ++ t.applied.map Applied.event
            ++ pendingEvents (FIQHandler t.state b).1
        unfold pendingEvents
        rw [hbuf, htm, hwr, h1, pendingOf_push _ _ _ _ _ _ hr hw hroom2, hslot, henq]
        unfold pendingEvents
        simp
    · have hnext : t.next pwm (Action.bus b)
          = ⟨(FIQHandler t.state b).1, t.enqueued, t.applied⟩ := by
        show t.recordBus (FIQHandler t.state b) = _
        unfold Trace.recordBus
        cases hres : (FIQHandler t.state b).2 with
        | idle => rfl
        | read D => rfl
        | write e => exact absurd hres (hne e)
      rw [hnext]
      refine ⟨by rw [h1]; exact hr, by rw [hwr]; exact hw, ?_, htime⟩
      show t.enqueued = base ++ t.applied.map Applied.event
            ++ pendingEvents (FIQHandler t.state b).1
      unfold pendingEvents
      rw [hbuf, htm, hwr, h1]
      exact henq
  | resetCheck =>
    obtain ⟨h1, h2, h3, h4⟩ := resetAction_ring t.state
    refine ⟨by show (resetAction t.state).ringRead < _; rw [h1]; exact hr,
      by show (resetAction t.state).ringWrite < _; rw [h2]; exact hw, ?_, htime⟩
    show t.enqueued = base ++ t.applied.map Applied.event ++ pendingEvents (resetAction t.state)
    unfold pendingEvents
    rw [h1, h2, h3, h4]
    exact henq
  | step =>
    obtain ⟨hbuf, htm, hwr, h2⟩ := emulationStep_ring pwm t.state
    rcases h2 with ⟨a, ha, hne, hev, hta, hrd⟩ | ⟨hnone, hrd⟩
    · have hnext : t.next pwm Action.step
          = ⟨(emulationStep pwm t.state).1, t.enqueued, t.applied ++ [a]⟩ := by
        show t.recordStep (emulationStep pwm t.state) = _
        unfold Trace.recordStep
        rw [ha]
      rw [hnext]
      refine ⟨?_, by rw [hwr]; exact hw, ?_, ?_⟩
      · show (emulationStep pwm t.state).1.ringRead < RING_SIZE
        rw [hrd]
        exact Nat.mod_lt _ (by rw [RING_SIZE_eq]; norm_num)
      · show t.enqueued = base ++ (t.applied ++ [a]).map Applied.event
            ++ pendingEvents (emulationStep pwm t.state).1
        unfold pendingEvents
        rw [hbuf, htm, hwr, hrd, henq]
        unfold pendingEvents
        rw [pendingOf_pop _ _ _ _ hr hw hne, ← hev]
        simp
      · intro x hx
        rcases List.mem_append.mp hx with hx | hx
        · exact htime x hx
        · rw [List.mem_singleton.mp hx]; exact hta
    · have hnext : t.next pwm Action.step
          = ⟨(emulationStep pwm t.state).1, t.enqueued, t.applied⟩ := by
        show t.recordStep (emulationStep pwm t.state) = _
        unfold Trace.recordStep
        rw [hnone]
      rw [hnext]
      refine ⟨by rw [hrd]; exact hr, by rw [hwr]; exact hw, ?_, htime⟩
      show t.enqueued = base ++ t.applied.map Applied.event
            ++ pendingEvents (emulationStep pwm t.state).1
      unfold pendingEvents
      rw [hbuf, htm, hwr, hrd]
      exact henq

theorem run_nil (pwm : Bool) (t : Trace) : run pwm t [] = t := rfl

theorem run_cons (pwm : Bool) (t : Trace) (a : Action) (as : List Action) :
    run pwm t (a :: as) = run pwm (t.next pwm a) as := rfl

theorem run_append (pwm : Bool) (t : Trace) (as bs : List Action) :
    run pwm t (as ++ bs) = run pwm (run pwm t as) bs := by
  unfold run
  rw [List.foldl_append]

theorem RingInv_run (pwm : Bool) (as : List Action) : ∀ (t : Trace), RingInv [] t →
    (∀ b, Action.bus b ∈ as → b.D0to7 < 256) → NoOverflow pwm t as →
    RingInv [] (run pwm t as) := by
  induction as with
  | nil => intro t h _ _; exact h
  | cons a as ih =>
    intro t hinv hD hno
    rw [run_cons]
    obtain ⟨h1, h2⟩ := hno
    apply ih
    · apply RingInv_next pwm [] t a hinv
      · intro b hb
        exact hD b (by rw [hb]; exact List.mem_cons_self _ _)
      · unfold unread at h1
        simp only [List.length_nil]
        omega
    · intro b hb
      exact hD b (List.mem_cons_of_mem _ hb)
    · exact h2

theorem RingInv_start (s : State) (hr : s.ringRead < RING_SIZE) (he : s.ringWrite = s.ringRead) :
    RingInv [] (Trace.start s) := by
  refine ⟨hr, by show s.ringWrite < _; rw [he]; exact hr, ?_, ?_⟩
  · show [] = [] ++ List.map Applied.event [] ++ pendingEvents s
    unfold pendingEvents
    rw [he, pendingOf_empty]
    rfl
  · intro a ha
    exact absurd ha (List.not_mem_nil a)

/-- C3: in every interleaving of bus cycles, reset checks and scheduler passes
that starts with an empty ring buffer and in which the number of unread events
stays below RING_SIZE, the events applied to the chips are, in order, an
initial part of the events enqueued (those not yet applied are exactly the
pending ring entries), and every event was applied in a pass whose
nCyclesEmulated, after the advance of that pass, was at least its atCycle. -/
theorem ordering (pwm : Bool) (s : State) (as : List Action)
    (hr : s.ringRead < RING_SIZE) (he : s.ringWrite = s.ringRead)
    (hD : ∀ b, Action.bus b ∈ as → b.D0to7 < 256)
    (hno : NoOverflow pwm (Trace.start s) as) :
    (run pwm (Trace.start s) as).applied.map Applied.event
        <+: (run pwm (Trace.start s) as).enqueued
    ∧ (run pwm (Trace.start s) as).enqueued
        = (run pwm (Trace.start s) as).applied.map Applied.event
          ++ pendingEvents (run pwm (Trace.start s) as).state
    ∧ ∀ a ∈ (run pwm (Trace.start s) as).applied, a.atCycle ≤ a.cyclesEmulated := by
  obtain ⟨_, _, h3, h4⟩ := RingInv_run pwm as (Trace.start s) (RingInv_start s hr he) hD hno
  rw [List.nil_append] at h3
  exact ⟨⟨_, h3.symm⟩, h3, h4⟩

/-- Witness of C3: two writes (chip 2 register 5, chip 7 register 4) followed
by two passes of the buffered-audio build, from the start state. -/
theorem ordering_witness :
    (run false (Trace.start (startState 0))
      [Action.bus ⟨false, false, true, true, 0x85, 0, 0x3F⟩,
       Action.bus ⟨false, false, true, true, 0xA4, 1, 0x01⟩,
       Action.step, Action.step]).applied.map Applied.event
    <+: (run false (Trace.start (startState 0))
      [Action.bus ⟨false, false, true, true, 0x85, 0, 0x3F⟩,
       Action.bus ⟨false, false, true, true, 0xA4, 1, 0x01⟩,
       Action.step, Action.step]).enqueued
    ∧ (run false (Trace.start (startState 0))
      [Action.bus ⟨false, false, true, true, 0x85, 0, 0x3F⟩,
       Action.bus ⟨false, false, true, true, 0xA4, 1, 0x01⟩,
       Action.step, Action.step]).applied.map Applied.event
      = [⟨2, 5, 0x3F, 1⟩, ⟨7, 4, 0x01, 2⟩] :=
  ⟨(ordering false (startState 0)
    [Action.bus ⟨false, false, true, true, 0x85, 0, 0x3F⟩,
     Action.bus ⟨false, false, true, true, 0xA4, 1, 0x01⟩,
     Action.step, Action.step]
    (by decide) (by decide)
    (by
      intro b hb
      simp at hb
      rcases hb with hb | hb <;> rw [hb] <;> decide)
    ⟨by decide, by decide, by decide, by decide, trivial⟩).1, by decide⟩

/-! ### Overflow of the ring buffer -/

theorem FIQHandler_write (s : State) (b : BusCycle) (hb : isWriteCycle b) :
    ∃ e, (FIQHandler s b).2 = BusResult.write e := by
  obtain ⟨h1, h2, h3⟩ := hb
  unfold FIQHandler
  dsimp only
  rw [if_neg (by rw [h1]; simp), if_pos ⟨h2, h3⟩]
  exact ⟨_, rfl⟩

/-- A write cycle moves the write index by one and records one event. -/
theorem next_write (pwm : Bool) (t : Trace) (b : BusCycle) (hb : isWriteCycle b) :
    (t.next pwm (Action.bus b)).state.ringRead = t.state.ringRead
    ∧ (t.next pwm (Action.bus b)).state.ringWrite = (t.state.ringWrite + 1) % RING_SIZE
    ∧ (t.next pwm (Action.bus b)).enqueued.length = t.enqueued.length + 1
    ∧ (t.next pwm (Action.bus b)).applied = t.applied
    ∧ t.enqueued <+: (t.next pwm (Action.bus b)).enqueued := by
  obtain ⟨e, he⟩ := FIQHandler_write t.state b hb
  obtain ⟨h1, h2⟩ := FIQHandler_ring t.state b
  have hnext : t.next pwm (Action.bus b)
      = ⟨(FIQHandler t.state b).1, t.enqueued ++ [e], t.applied⟩ := by
    show t.recordBus (FIQHandler t.state b) = _
    unfold Trace.recordBus
    rw [he]
  rcases h2 with ⟨e2, _, _, _, _, hwr⟩ | ⟨hne, _⟩
  · rw [hnext]
    exact ⟨h1, hwr, by simp, rfl, List.prefix_append _ _⟩
  · exact absurd he (hne e)

/-- Write cycles without any pass of the scheduler: the read index stays, the
write index moves by their number modulo RING_SIZE. -/
theorem run_writes (pwm : Bool) (bs : List BusCycle) : ∀ (t : Trace),
    (∀ b ∈ bs, isWriteCycle b) → t.state.ringWrite < RING_SIZE →
    (run pwm t (bs.map Action.bus)).state.ringRead = t.state.ringRead
    ∧ (run pwm t (bs.map Action.bus)).state.ringWrite
        = (t.state.ringWrite + bs.length) % RING_SIZE
    ∧ (run pwm t (bs.map Action.bus)).enqueued.length = t.enqueued.length + bs.length
    ∧ (run pwm t (bs.map Action.bus)).applied = t.applied
    ∧ t.enqueued <+: (run pwm t (bs.map Action.bus)).enqueued := by
  induction bs with
  | nil =>
    intro t _ hw
    refine ⟨rfl, ?_, rfl, rfl, List.prefix_refl _⟩
    show t.state.ringWrite = (t.state.ringWrite + 0) % RING_SIZE
    rw [Nat.add_zero, Nat.mod_eq_of_lt hw]
  | cons b bs ih =>
    intro t hb hw
    obtain ⟨n1, n2, n3, n4, n5⟩ := next_write pwm t b (hb b (List.mem_cons_self _ _))
    have hw2 : (t.next pwm (Action.bus b)).state.ringWrite < RING_SIZE := by
      rw [n2]; exact Nat.mod_lt _ (by rw [RING_SIZE_eq]; norm_num)
    obtain ⟨i1, i2, i3, i4, i5⟩ := ih (t.next pwm (Action.bus b))
      (fun x hx => hb x (List.mem_cons_of_mem _ hx)) hw2
    rw [List.map_cons, run_cons]
    refine ⟨i1.trans n1, ?_, ?_, i4.trans n4, n5.trans i5⟩
    · rw [i2, n2, List.length_cons]
      simp only [RING_SIZE_eq]
      omega
    · rw [i3, n3, List.length_cons]
      omega

/-- Fewer write cycles than there is room for keep the invariant. -/
theorem RingInv_writes (pwm : Bool) (base : List BusEvent) (bs : List BusCycle) :
    ∀ (t : Trace), RingInv base t → t.applied = [] →
    (∀ b ∈ bs, isWriteCycle b ∧ b.D0to7 < 256) →
    t.enqueued.length + bs.length < base.length + RING_SIZE →
    RingInv base (run pwm t (bs.map Action.bus))
      ∧ (run pwm t (bs.map Action.bus)).applied = [] := by
  induction bs with
  | nil => intro t h ha _ _; exact ⟨h, ha⟩
  | cons b bs ih =>
    intro t hinv happ hb hlen
    obtain ⟨n1, n2, n3, n4, n5⟩ := next_write pwm t b (hb b (List.mem_cons_self _ _)).1
    rw [List.length_cons] at hlen
    rw [List.map_cons, run_cons]
    apply ih
    · apply RingInv_next pwm base t _ hinv
      · intro b2 hb2
        injection hb2 with hb2
        rw [← hb2]
        exact (hb b (List.mem_cons_self _ _)).2
      · rw [n3, n4, happ]
        simp only [List.length_nil]
        omega
    · rw [n4, happ]
    · intro x hx
      exact hb x (List.mem_cons_of_mem _ hx)
    · rw [n3]
      omega

/-- After any number of write cycles from an empty ring buffer, without a
pass of the scheduler, the pending entries are the last `n % RING_SIZE`
enqueued events. -/
theorem writes_wrap (pwm : Bool) (s : State) (bs : List BusCycle)
    (hr : s.ringRead < RING_SIZE) (he : s.ringWrite = s.ringRead)
    (hb : ∀ b ∈ bs, isWriteCycle b ∧ b.D0to7 < 256) :
    (run pwm (Trace.start s) (bs.map Action.bus)).state.ringRead = s.ringRead
    ∧ (run pwm (Trace.start s) (bs.map Action.bus)).enqueued.length = bs.length
    ∧ pendingEvents (run pwm (Trace.start s) (bs.map Action.bus)).state
        = (run pwm (Trace.start s) (bs.map Action.bus)).enqueued.drop
            (bs.length - bs.length % RING_SIZE)
    ∧ (pendingEvents (run pwm (Trace.start s) (bs.map Action.bus)).state).length
        = bs.length % RING_SIZE
    ∧ (run pwm (Trace.start s) (bs.map Action.bus)).applied = []
    ∧ ∃ base, RingInv base (run pwm (Trace.start s) (bs.map Action.bus)) := by
  have hN : 0 < RING_SIZE := by rw [RING_SIZE_eq]; norm_num
  have hw : (Trace.start s).state.ringWrite < RING_SIZE := by
    show s.ringWrite < _; rw [he]; exact hr
  obtain ⟨a1, _, a3, _, _⟩ := run_writes pwm bs (Trace.start s) (fun b h => (hb b h).1) hw
  have hsplit : bs = bs.take (bs.length - bs.length % RING_SIZE)
      ++ bs.drop (bs.length - bs.length % RING_SIZE) := (List.take_append_drop _ _).symm
  generalize hm : bs.length - bs.length % RING_SIZE = m at hsplit
  have hmodle : bs.length % RING_SIZE ≤ bs.length := Nat.mod_le _ _
  have hmle : m ≤ bs.length := by omega
  have hmmod : m % RING_SIZE = 0 := by
    rw [← hm]
    exact Nat.sub_mod_eq_zero_of_mod_eq (Nat.mod_mod _ _).symm
  have hl1 : (bs.take m).length = m := by rw [List.length_take]; omega
  have hl2 : (bs.drop m).length = bs.length % RING_SIZE := by rw [List.length_drop]; omega
  obtain ⟨b1, b2, b3, b4, _⟩ := run_writes pwm (bs.take m) (Trace.start s)
    (fun b h => (hb b (List.mem_of_mem_take h)).1) hw
  have hrun : run pwm (Trace.start s) (bs.map Action.bus)
      = run pwm (run pwm (Trace.start s) ((bs.take m).map Action.bus))
          ((bs.drop m).map Action.bus) := by
    rw [← run_append, ← List.map_append, ← hsplit]
  generalize ht1 : run pwm (Trace.start s) ((bs.take m).map Action.bus) = t1 at *
  have hw1 : t1.state.ringWrite = t1.state.ringRead := by
    rw [b2, b1, hl1]
    show (s.ringWrite + m) % RING_SIZE = s.ringRead
    rw [he, Nat.add_mod, hmmod, Nat.add_zero, Nat.mod_mod, Nat.mod_eq_of_lt hr]
  have hlen1 : t1.enqueued.length = m := by
    rw [b3, hl1]; show 0 + m = m; omega
  have hinv1 : RingInv t1.enqueued t1 := by
    refine ⟨by rw [b1]; exact hr, by rw [hw1, b1]; exact hr, ?_, ?_⟩
    · unfold pendingEvents
      rw [hw1, pendingOf_empty, b4]
      show t1.enqueued = t1.enqueued ++ [] ++ []
      simp
    · intro a ha
      rw [b4] at ha
      exact absurd ha (List.not_mem_nil a)
  obtain ⟨cinv, c5⟩ := RingInv_writes pwm t1.enqueued (bs.drop m) t1 hinv1 b4
    (fun b h => hb b (List.mem_of_mem_drop h)) (by rw [hl2]; have := Nat.mod_lt bs.length hN; omega)
  rw [← hrun] at cinv c5
  have c3 := cinv.2.2.1
  rw [c5] at c3
  simp only [List.map_nil, List.append_nil] at c3
  have hdrop : (run pwm (Trace.start s) (bs.map Action.bus)).enqueued.drop m
      = pendingEvents (run pwm (Trace.start s) (bs.map Action.bus)).state := by
    have := congrArg (List.drop m) c3
    rw [this, ← hlen1, List.drop_left]
  refine ⟨a1, ?_, hdrop.symm, ?_, c5, ⟨_, cinv⟩⟩
  · rw [a3]; show 0 + bs.length = _; omega
  · rw [← hdrop, List.length_drop, a3]
    show 0 + bs.length - m = _
    omega
theorem next_step_logs (pwm : Bool) (t : Trace) :
    (t.next pwm Action.step).enqueued = t.enqueued
    ∧ t.applied.length ≤ (t.next pwm Action.step).applied.length := by
  show (t.recordStep (emulationStep pwm t.state)).enqueued = t.enqueued
    ∧ t.applied.length ≤ (t.recordStep (emulationStep pwm t.state)).applied.length
  unfold Trace.recordStep
  cases (emulationStep pwm t.state).2 with
  | none => exact ⟨rfl, le_refl _⟩
  | some a => exact ⟨rfl, by simp⟩

theorem pendingCount_lt (s : State) : pendingCount s < RING_SIZE :=
  Nat.mod_lt _ (by rw [RING_SIZE_eq]; norm_num)

/-- Passes of the scheduler alone keep the invariant. -/
theorem RingInv_steps (pwm : Bool) (base : List BusEvent) (n : Nat) : ∀ (t : Trace),
    RingInv base t → RingInv base (run pwm t (List.replicate n Action.step)) := by
  induction n with
  | zero => intro t h; exact h
  | succ n ih =>
    intro t hinv
    rw [List.replicate_succ, run_cons]
    apply ih
    apply RingInv_next pwm base t _ hinv
    · intro b hb
      cases hb
    · obtain ⟨l1, l2⟩ := next_step_logs pwm t
      have hlen : t.enqueued.length = base.length + t.applied.length + pendingCount t.state := by
        rw [hinv.2.2.1, List.length_append, List.length_append, List.length_map,
          pendingEvents_length]
      have := pendingCount_lt t.state
      rw [l1]
      omega

/-- What the scheduler takes from the ring buffer in any number of passes,
when no bus cycle comes between, is an initial part of the pending entries. -/
theorem steps_take_pending (pwm : Bool) (base : List BusEvent) (t : Trace) (n : Nat)
    (hinv : RingInv base t) (happ : t.applied = []) :
    (run pwm t (List.replicate n Action.step)).applied.map Applied.event
      <+: pendingEvents t.state := by
  have h1 := hinv.2.2.1
  have h2 := (RingInv_steps pwm base n t hinv).2.2.1
  have henq : (run pwm t (List.replicate n Action.step)).enqueued = t.enqueued := by
    clear h1 h2 hinv happ
    induction n generalizing t with
    | zero => rfl
    | succ n ih =>
      rw [List.replicate_succ, run_cons, ih, (next_step_logs pwm t).1]
  rw [henq, h1, happ, List.map_nil, List.append_nil, List.append_assoc] at h2
  exact ⟨_, (List.append_cancel_left h2).symm⟩
/-! ### Reset handling -/

theorem foldl_write_regs (l : List Nat) : ∀ (c : SID) (k : Nat),
    ((l.foldl (fun c j => c.write j 0) c).regs k = if k ∈ l then 0 else c.regs k)
    ∧ (l.foldl (fun c j => c.write j 0) c).model = c.model
    ∧ (l.foldl (fun c j => c.write j 0) c).voice_mask = c.voice_mask
    ∧ (l.foldl (fun c j => c.write j 0) c).ext_in = c.ext_in
    ∧ (l.foldl (fun c j => c.write j 0) c).cycles = c.cycles := by
  induction l with
  | nil => intro c k; simp
  | cons j l ih =>
    intro c k
    rw [List.foldl_cons]
    obtain ⟨h1, h2, h3, h4, h5⟩ := ih (c.write j 0) k
    refine ⟨?_, h2, h3, h4, h5⟩
    rw [h1]
    by_cases hk : k = j
    · subst hk
      simp [SID.write, store]
    · by_cases hl : k ∈ l
      · simp [hl]
      · simp [hl, hk, SID.write, store]

theorem clearRegs_regs (c : SID) (k : Nat) :
    (clearRegs c).regs k = if k < 24 then 0 else c.regs k := by
  unfold clearRegs
  rw [(foldl_write_regs (List.range 24) c k).1]
  simp [List.mem_range]

theorem clearRegs_model (c : SID) :
    (clearRegs c).model = c.model ∧ (clearRegs c).voice_mask = c.voice_mask
    ∧ (clearRegs c).ext_in = c.ext_in ∧ (clearRegs c).cycles = c.cycles :=
  (foldl_write_regs (List.range 24) c 0).2

/-- C5 (amended): when the reset condition holds (resetCounter > 3 and the
line released), the reset handling leaves registers 0..23 of each of the eight
chips reading zero, leaves registers 24 and above as they were, and sets
resetCounter to zero; the other counters keep their values. -/
theorem reset_clears (s : State) (h1 : s.resetCounter > 3) (h2 : s.resetReleased ≠ 0) :
    (∀ i j, i < NUM_SIDS → j < 24 → ((resetAction s).sid i).read j = 0)
    ∧ (∀ i j, 24 ≤ j → ((resetAction s).sid i).read j = (s.sid i).read j)
    ∧ (resetAction s).resetCounter = 0
    ∧ (resetAction s).cycleCountC64 = s.cycleCountC64
    ∧ (resetAction s).nCyclesEmulated = s.nCyclesEmulated
    ∧ (resetAction s).carrySamples = s.carrySamples
    ∧ (resetAction s).ringRead = s.ringRead
    ∧ (resetAction s).ringWrite = s.ringWrite := by
  have hact : resetAction s = { s with resetCounter := 0, sid := clearAll s.sid } := by
    unfold resetAction
    rw [if_pos ⟨h1, h2⟩]
  rw [hact]
  refine ⟨?_, ?_, rfl, rfl, rfl, rfl, rfl, rfl⟩
  · intro i j hi hj
    show (clearAll s.sid i).regs j = 0
    unfold clearAll
    rw [if_pos hi, clearRegs_regs, if_pos hj]
  · intro i j hj
    show (clearAll s.sid i).regs j = (s.sid i).regs j
    unfold clearAll
    by_cases hi : i < NUM_SIDS
    · rw [if_pos hi, clearRegs_regs, if_neg (by omega)]
    · rw [if_neg hi]

/-- Witness of C5: all registers of all chips hold 0xFF, the reset line was
asserted for four cycles and released. -/
theorem reset_clears_witness :
    ((resetAction { startState 0 with
        sid := fun _ => { SID.fresh with regs := fun _ => 0xFF }
        resetCounter := 4
        resetReleased := 1 }).sid 7).read 23 = 0
    ∧ (resetAction { startState 0 with
        sid := fun _ => { SID.fresh with regs := fun _ => 0xFF }
        resetCounter := 4
        resetReleased := 1 }).resetCounter = 0 :=
  have h := reset_clears { startState 0 with
        sid := fun _ => { SID.fresh with regs := fun _ => 0xFF }
        resetCounter := 4
        resetReleased := 1 } (by decide) (by decide)
  ⟨h.1 7 23 (by decide) (by decide), h.2.2.1⟩

/-- Counterexample to C5 as stated: with 0xFF in all registers of all chips and
the reset condition fulfilled, register 24 of chip 0 still reads 0xFF after
the reset handling. -/
theorem reset_counterexample :
    ({ startState 0 with
        sid := fun _ => { SID.fresh with regs := fun _ => 0xFF }
        resetCounter := 4
        resetReleased := 1 } : State).resetCounter > 3
    ∧ ({ startState 0 with
        sid := fun _ => { SID.fresh with regs := fun _ => 0xFF }
        resetCounter := 4
        resetReleased := 1 } : State).resetReleased ≠ 0
    ∧ ((resetAction { startState 0 with
        sid := fun _ => { SID.fresh with regs := fun _ => 0xFF }
        resetCounter := 4
        resetReleased := 1 }).sid 0).read 24 = 0xFF := by
  decide

/-! ### Write forwarding -/

theorem advance_regs (pwm : Bool) (s : State) (i : Nat) :
    ((advance pwm s).sid i).regs = (s.sid i).regs := by
  show (if i < NUM_SIDS then (s.sid i).clock _ else s.sid i).regs = _
  split_ifs <;> rfl

/-- A pass with nothing to read up to `ringWrite` applies nothing. -/
theorem emulationStep_empty (pwm : Bool) (s : State) (he : s.ringRead = s.ringWrite) :
    (emulationStep pwm s).2 = none
    ∧ (emulationStep pwm s).1.ringRead = (emulationStep pwm s).1.ringWrite
    ∧ ∀ i, ((emulationStep pwm s).1.sid i).regs = (s.sid i).regs := by
  have hc : ¬ ((advance pwm s).ringRead ≠ (advance pwm s).ringWrite
      ∧ (advance pwm s).nCyclesEmulated ≥ (advance pwm s).ringTime (advance pwm s).ringRead) := by
    intro h
    exact h.1 he
  have hd : drainOne (advance pwm s) = (advance pwm s, none) := by
    unfold drainOne
    dsimp only
    rw [if_neg hc]
  unfold emulationStep
  rw [hd]
  exact ⟨rfl, he, fun i => advance_regs pwm s i⟩

/-- A pass in which the entry at `ringRead` is not yet due applies nothing and
leaves the ring buffer as it is. -/
theorem emulationStep_early (pwm : Bool) (s : State)
    (hlt : (emulationStep pwm s).1.nCyclesEmulated < s.ringTime s.ringRead) :
    (emulationStep pwm s).2 = none
    ∧ (emulationStep pwm s).1.ringRead = s.ringRead
    ∧ (emulationStep pwm s).1.ringWrite = s.ringWrite
    ∧ State.ringBufGPIO (emulationStep pwm s).1 = s.ringBufGPIO
    ∧ (emulationStep pwm s).1.ringTime = s.ringTime := by
  by_cases hc : (advance pwm s).ringRead ≠ (advance pwm s).ringWrite
      ∧ (advance pwm s).nCyclesEmulated ≥ (advance pwm s).ringTime (advance pwm s).ringRead
  · exfalso
    have hd : drainOne (advance pwm s) = applyEntry (advance pwm s) := by
      unfold drainOne
      dsimp only
      rw [if_pos hc]
    unfold emulationStep at hlt
    rw [hd] at hlt
    have h2 : (advance pwm s).nCyclesEmulated ≥ s.ringTime s.ringRead := hc.2
    have h3 : (advance pwm s).nCyclesEmulated < s.ringTime s.ringRead := hlt
    omega
  · have hd : drainOne (advance pwm s) = (advance pwm s, none) := by
      unfold drainOne
      dsimp only
      rw [if_neg hc]
    unfold emulationStep
    rw [hd]
    exact ⟨rfl, rfl, rfl, rfl, rfl⟩

/-- The value of `nCyclesEmulated` after a pass is the one after its advance. -/
theorem emulationStep_cycles (pwm : Bool) (s : State) :
    (emulationStep pwm s).1.nCyclesEmulated = (advance pwm s).nCyclesEmulated := by
  unfold emulationStep drainOne
  dsimp only
  split_ifs <;> rfl

/-- A pass in which the entry at `ringRead` is due writes it to its chip. -/
theorem emulationStep_due (pwm : Bool) (s : State) (hne : s.ringRead ≠ s.ringWrite)
    (hge : s.ringTime s.ringRead ≤ (emulationStep pwm s).1.nCyclesEmulated) :
    (emulationStep pwm s).2 = some ⟨entrySID (s.ringBufGPIO s.ringRead),
        entryA (s.ringBufGPIO s.ringRead), entryD (s.ringBufGPIO s.ringRead),
        s.ringTime s.ringRead, (emulationStep pwm s).1.nCyclesEmulated⟩
    ∧ (emulationStep pwm s).1.ringRead = (s.ringRead + 1) % RING_SIZE
    ∧ (emulationStep pwm s).1.ringWrite = s.ringWrite
    ∧ ((emulationStep pwm s).1.sid (entrySID (s.ringBufGPIO s.ringRead))).regs
        (entryA (s.ringBufGPIO s.ringRead)) = entryD (s.ringBufGPIO s.ringRead) := by
  rw [emulationStep_cycles] at hge ⊢
  have hc : (advance pwm s).ringRead ≠ (advance pwm s).ringWrite
      ∧ (advance pwm s).nCyclesEmulated ≥ (advance pwm s).ringTime (advance pwm s).ringRead :=
    ⟨hne, hge⟩
  have hd : drainOne (advance pwm s) = applyEntry (advance pwm s) := by
    unfold drainOne
    dsimp only
    rw [if_pos hc]
  unfold emulationStep
  rw [hd]
  refine ⟨rfl, ringInc _, rfl, ?_⟩
  have e1 : State.ringBufGPIO (advance pwm s) = s.ringBufGPIO := rfl
  have e2 : (advance pwm s).ringRead = s.ringRead := rfl
  show (store (advance pwm s).sid _ _ _).regs _ = _
  simp [store, SID.write, e1, e2]

theorem next_step_eq (pwm : Bool) (t : Trace) :
    (t.next pwm Action.step).state = (emulationStep pwm t.state).1
    ∧ (t.next pwm Action.step).applied = t.applied ++ (emulationStep pwm t.state).2.toList := by
  show (t.recordStep (emulationStep pwm t.state)).state = _
    ∧ (t.recordStep (emulationStep pwm t.state)).applied = _
  unfold Trace.recordStep
  cases (emulationStep pwm t.state).2 with
  | none => exact ⟨rfl, by simp⟩
  | some a => exact ⟨rfl, by simp⟩

theorem run_steps_succ (pwm : Bool) (t : Trace) (n : Nat) :
    run pwm t (List.replicate (n + 1) Action.step)
      = (run pwm t (List.replicate n Action.step)).next pwm Action.step := by
  rw [List.replicate_succ', run_append]
  rfl

/-- As long as the entry at `ringRead` is not due, the passes apply nothing
and leave the ring buffer alone. -/
theorem steps_idle (pwm : Bool) (t : Trace) : ∀ (n : Nat),
    (∀ m, 1 ≤ m → m ≤ n →
      (run pwm t (List.replicate m Action.step)).state.nCyclesEmulated
        < t.state.ringTime t.state.ringRead) →
    (run pwm t (List.replicate n Action.step)).applied = t.applied
    ∧ (run pwm t (List.replicate n Action.step)).state.ringRead = t.state.ringRead
    ∧ (run pwm t (List.replicate n Action.step)).state.ringWrite = t.state.ringWrite
    ∧ State.ringBufGPIO (run pwm t (List.replicate n Action.step)).state = t.state.ringBufGPIO
    ∧ (run pwm t (List.replicate n Action.step)).state.ringTime = t.state.ringTime := by
  intro n
  induction n with
  | zero => intro _; exact ⟨rfl, rfl, rfl, rfl, rfl⟩
  | succ n ih =>
    intro h
    obtain ⟨i1, i2, i3, i4, i5⟩ := ih (fun m h1 h2 => h m h1 (by omega))
    have hlast := h (n + 1) (by omega) (le_refl _)
    rw [run_steps_succ] at hlast ⊢
    obtain ⟨e1, e2⟩ := next_step_eq pwm (run pwm t (List.replicate n Action.step))
    rw [e1] at hlast ⊢
    rw [e2]
    rw [← i5, ← i2] at hlast
    obtain ⟨f1, f2, f3, f4, f5⟩ := emulationStep_early pwm _ hlast
    rw [f1, f2, f3, f4, f5]
    exact ⟨by simp [i1], i2, i3, i4, i5⟩

/-- With nothing in the ring buffer the passes apply nothing and the registers
of the chips keep their content. -/
theorem steps_empty (pwm : Bool) (n : Nat) : ∀ (t : Trace),
    t.state.ringRead = t.state.ringWrite →
    (run pwm t (List.replicate n Action.step)).applied = t.applied
    ∧ ∀ i, ((run pwm t (List.replicate n Action.step)).state.sid i).regs
        = (t.state.sid i).regs := by
  induction n with
  | zero => intro t _; exact ⟨rfl, fun _ => rfl⟩
  | succ n ih =>
    intro t he
    rw [List.replicate_succ, run_cons]
    obtain ⟨e1, e2⟩ := next_step_eq pwm t
    obtain ⟨f1, f2, f3⟩ := emulationStep_empty pwm t.state he
    obtain ⟨i1, i2⟩ := ih (t.next pwm Action.step) (by rw [e1]; exact f2)
    refine ⟨?_, ?_⟩
    · rw [i1, e2, f1]; simp
    · intro i
      rw [i2, e1, f3]

/-- A single pending entry is applied in the first pass whose `nCyclesEmulated`
reaches its time stamp, and in no other. -/
theorem single_entry (pwm : Bool) (s : State) (n : Nat)
    (hw : s.ringWrite = (s.ringRead + 1) % RING_SIZE) :
    ((∀ m, 1 ≤ m → m ≤ n →
        (run pwm (Trace.start s) (List.replicate m Action.step)).state.nCyclesEmulated
          < s.ringTime s.ringRead) →
      (run pwm (Trace.start s) (List.replicate n Action.step)).applied = [])
    ∧ ((∃ m, 1 ≤ m ∧ m ≤ n ∧ s.ringTime s.ringRead
          ≤ (run pwm (Trace.start s) (List.replicate m Action.step)).state.nCyclesEmulated) →
      (run pwm (Trace.start s) (List.replicate n Action.step)).applied.map Applied.event
          = [slotEvent s.ringBufGPIO s.ringTime s.ringRead]
      ∧ ((run pwm (Trace.start s) (List.replicate n Action.step)).state.sid
          (entrySID (s.ringBufGPIO s.ringRead))).regs (entryA (s.ringBufGPIO s.ringRead))
          = entryD (s.ringBufGPIO s.ringRead)) := by
  constructor
  · intro h
    exact (steps_idle pwm (Trace.start s) n h).1
  · intro hex
    classical
    have hex2 : ∃ m, 1 ≤ m ∧ m ≤ n ∧ s.ringTime s.ringRead
        ≤ (run pwm (Trace.start s) (List.replicate m Action.step)).state.nCyclesEmulated := hex
    obtain ⟨hm1, hmn, hmt⟩ := Nat.find_spec hex2
    have hmin : ∀ k, k < Nat.find hex2 → ¬ (1 ≤ k ∧ k ≤ n ∧ s.ringTime s.ringRead
        ≤ (run pwm (Trace.start s) (List.replicate k Action.step)).state.nCyclesEmulated) :=
      fun k hk => Nat.find_min hex2 hk
    generalize Nat.find hex2 = m0 at hm1 hmn hmt hmin
    obtain ⟨p, rfl⟩ : ∃ p, m0 = p + 1 := ⟨m0 - 1, by omega⟩
    obtain ⟨q, rfl⟩ : ∃ q, n = p + 1 + q := ⟨n - (p + 1), by omega⟩
    obtain ⟨i1, i2, i3, i4, i5⟩ := steps_idle pwm (Trace.start s) p (by
      intro k hk1 hk2
      show _ < s.ringTime s.ringRead
      by_contra hcon
      exact hmin k (by omega) ⟨hk1, by omega, by omega⟩)
    have i1 : (run pwm (Trace.start s) (List.replicate p Action.step)).applied = [] := i1
    have i2 : (run pwm (Trace.start s) (List.replicate p Action.step)).state.ringRead
        = s.ringRead := i2
    have i3 : (run pwm (Trace.start s) (List.replicate p Action.step)).state.ringWrite
        = s.ringWrite := i3
    have i4 : State.ringBufGPIO (run pwm (Trace.start s) (List.replicate p Action.step)).state
        = s.ringBufGPIO := i4
    have i5 : (run pwm (Trace.start s) (List.replicate p Action.step)).state.ringTime
        = s.ringTime := i5
    rw [run_steps_succ] at hmt
    obtain ⟨e1, e2⟩ := next_step_eq pwm (run pwm (Trace.start s) (List.replicate p Action.step))
    rw [e1] at hmt
    have hne : (run pwm (Trace.start s) (List.replicate p Action.step)).state.ringRead
        ≠ (run pwm (Trace.start s) (List.replicate p Action.step)).state.ringWrite := by
      rw [i2, i3, hw]
      simp only [RING_SIZE_eq]
      omega
    have hmt2 : (run pwm (Trace.start s) (List.replicate p Action.step)).state.ringTime
          (run pwm (Trace.start s) (List.replicate p Action.step)).state.ringRead
        ≤ (emulationStep pwm
            (run pwm (Trace.start s) (List.replicate p Action.step)).state).1.nCyclesEmulated := by
      rw [i5, i2]; exact hmt
    obtain ⟨d1, d2, d3, d4⟩ := emulationStep_due pwm _ hne hmt2
    rw [i4, i5, i2] at d1
    rw [i4, i2] at d4
    rw [i2] at d2
    rw [i3] at d3
    have hsplit : List.replicate (p + 1 + q) Action.step
        = List.replicate (p + 1) Action.step ++ List.replicate q Action.step := by
      rw [List.replicate_add]
    rw [hsplit, run_append, run_steps_succ]
    have hempty : ((run pwm (Trace.start s) (List.replicate p Action.step)).next pwm
        Action.step).state.ringRead
        = ((run pwm (Trace.start s) (List.replicate p Action.step)).next pwm
        Action.step).state.ringWrite := by
      rw [e1, d2, d3]
      exact hw.symm
    obtain ⟨g1, g2⟩ := steps_empty pwm q _ hempty
    rw [g1, g2, e2, e1, i1, d1, d4]
    exact ⟨rfl, rfl⟩

/-- C6: the ring entry the decoder stores for chip c < 8, register r < 32 and
data byte v < 256 is unpacked by the scheduler to (c, r, v).  A write cycle
met with an empty ring buffer enqueues the event (chip, register, data,
cycle count); the following passes apply nothing while nCyclesEmulated is
below the time stamp, and once a pass has reached it exactly this event has
been applied and the register of that chip holds the data byte. -/
theorem write_forwarding (pwm : Bool) (s0 : State) (b : BusCycle) (n : Nat)
    (hempty : s0.ringWrite = s0.ringRead) (hb : isWriteCycle b) (hv : b.D0to7 < 256) :
    (∀ c r v, c < 8 → r < 32 → v < 256 →
      entrySID (packEntry v r c) = c ∧ entryA (packEntry v r c) = r
        ∧ entryD (packEntry v r c) = v)
    ∧ (FIQHandler s0 b).2 = BusResult.write
        ⟨decodeSID (busAddress b.ADDRESS0to7 b.ADDRESS8to12),
          decodeReg (busAddress b.ADDRESS0to7 b.ADDRESS8to12), b.D0to7,
          (s0.cycleCountC64 + 1) % U64⟩
    ∧ ((∀ m, 1 ≤ m → m ≤ n →
          (run pwm (Trace.start (FIQHandler s0 b).1)
            (List.replicate m Action.step)).state.nCyclesEmulated
          < (s0.cycleCountC64 + 1) % U64) →
        (run pwm (Trace.start (FIQHandler s0 b).1) (List.replicate n Action.step)).applied = [])
    ∧ ((∃ m, 1 ≤ m ∧ m ≤ n ∧ (s0.cycleCountC64 + 1) % U64
          ≤ (run pwm (Trace.start (FIQHandler s0 b).1)
            (List.replicate m Action.step)).state.nCyclesEmulated) →
        (run pwm (Trace.start (FIQHandler s0 b).1)
            (List.replicate n Action.step)).applied.map Applied.event
          = [⟨decodeSID (busAddress b.ADDRESS0to7 b.ADDRESS8to12),
              decodeReg (busAddress b.ADDRESS0to7 b.ADDRESS8to12), b.D0to7,
              (s0.cycleCountC64 + 1) % U64⟩]
        ∧ ((run pwm (Trace.start (FIQHandler s0 b).1) (List.replicate n Action.step)).state.sid
            (decodeSID (busAddress b.ADDRESS0to7 b.ADDRESS8to12))).read
              (decodeReg (busAddress b.ADDRESS0to7 b.ADDRESS8to12)) = b.D0to7) := by
  obtain ⟨e, he⟩ := FIQHandler_write s0 b hb
  obtain ⟨f1, f2⟩ := FIQHandler_ring s0 b
  rcases f2 with ⟨e2, he2, hev, hbuf, htm, hwr⟩ | ⟨hne, _⟩
  swap
  · exact absurd he (hne e)
  have hu := unpack_pack b.D0to7 (decodeReg (busAddress b.ADDRESS0to7 b.ADDRESS8to12))
    (decodeSID (busAddress b.ADDRESS0to7 b.ADDRESS8to12)) hv (decodeReg_lt _)
    (lt_trans (decodeSID_lt _) (by norm_num))
  have hwr2 : (FIQHandler s0 b).1.ringWrite = ((FIQHandler s0 b).1.ringRead + 1) % RING_SIZE := by
    rw [hwr, f1, hempty]
  have hslotB : State.ringBufGPIO (FIQHandler s0 b).1 (FIQHandler s0 b).1.ringRead
      = packEntry b.D0to7 (decodeReg (busAddress b.ADDRESS0to7 b.ADDRESS8to12))
          (decodeSID (busAddress b.ADDRESS0to7 b.ADDRESS8to12)) := by
    rw [hbuf, f1, hempty, hev]
    simp [store]
  have hslotT : (FIQHandler s0 b).1.ringTime (FIQHandler s0 b).1.ringRead
      = (s0.cycleCountC64 + 1) % U64 := by
    rw [htm, f1, hempty, hev]
    simp [store]
  obtain ⟨g1, g2⟩ := single_entry pwm (FIQHandler s0 b).1 n hwr2
  rw [hslotT] at g1 g2
  unfold slotEvent at g2
  rw [hslotB, hslotT, hu.1, hu.2.1, hu.2.2] at g2
  refine ⟨?_, ?_, g1, g2⟩
  · intro c r v hc hr hv2
    exact unpack_pack v r c hv2 hr (by omega)
  · rw [he2, hev]

set_option maxRecDepth 100000 in
/-- Witness of C6: the write of 0x3F to register 5 of chip 2 in bus cycle 100,
in the buffered-audio build: after 49 passes nothing is applied, after the
50th pass (nCyclesEmulated = 100) chip 2 has received write(5, 0x3F). -/
theorem write_forwarding_witness :
    (run false (Trace.start (FIQHandler { startState 0 with cycleCountC64 := 99 }
        ⟨false, false, true, true, 0x85, 0, 0x3F⟩).1)
      (List.replicate 50 Action.step)).applied.map Applied.event = [⟨2, 5, 0x3F, 100⟩]
    ∧ ((run false (Trace.start (FIQHandler { startState 0 with cycleCountC64 := 99 }
        ⟨false, false, true, true, 0x85, 0, 0x3F⟩).1)
      (List.replicate 50 Action.step)).state.sid 2).read 5 = 0x3F :=
  (write_forwarding false { startState 0 with cycleCountC64 := 99 }
    ⟨false, false, true, true, 0x85, 0, 0x3F⟩ 50 (by decide) ⟨rfl, rfl, rfl⟩ (by decide)).2.2.2
    ⟨50, by decide, by decide, by decide⟩

/-! ### Clock measurement -/

theorem clockFreq_bounds (F e startTime : Nat) (he : 1000000 ≤ e)
    (ht : startTime + e < U64) (hfit : F * e / 1000000 * 1000000 < U64) :
    F - 1 ≤ clockFreq (F * e / 1000000) startTime (startTime + e)
    ∧ clockFreq (F * e / 1000000) startTime (startTime + e) ≤ F := by
  unfold clockFreq
  have h1 : (startTime + e + U64 - startTime) % U64 = e := by
    have : startTime + e + U64 - startTime = e + U64 := by omega
    rw [this, Nat.add_mod_right, Nat.mod_eq_of_lt (by omega)]
  rw [h1, Nat.mod_eq_of_lt hfit]
  have hpos : 0 < e := by omega
  have hle : F * e / 1000000 * 1000000 ≤ F * e := Nat.div_mul_le_self _ _
  have hlt : F * e < (F * e / 1000000 + 1) * 1000000 := by
    have := Nat.lt_div_mul_add (a := F * e) (b := 1000000) (by norm_num)
    linarith
  constructor
  · rw [Nat.le_div_iff_mul_le hpos]
    rcases Nat.eq_zero_or_pos F with h0 | h0
    · subst h0; simp
    · have : (F - 1) * e + e = F * e := by
        have hF : F - 1 + 1 = F := by omega
        calc (F - 1) * e + e = (F - 1 + 1) * e := by ring
          _ = F * e := by rw [hF]
      nlinarith
  · calc F * e / 1000000 * 1000000 / e ≤ F * e / e := Nat.div_le_div_right hle
      _ = F := Nat.mul_div_cancel _ hpos

/-- C7 (amended): for every host frequency F below 2^32 and every window of
e >= 1,000,000 microseconds, if the cycle count over the window is
floor(F*e/1,000,000) and the product cycle count * 1,000,000 fits in 64 bits,
then the stored CLOCKFREQ is F or F - 1. -/
theorem clock_calibration (F e startTime : Nat) (hF : F < U32) (he : 1000000 ≤ e)
    (ht : startTime + e < U64) (hfit : F * e / 1000000 * 1000000 < U64) :
    F - 1 ≤ measuredCLOCKFREQ (F * e / 1000000) startTime (startTime + e)
    ∧ measuredCLOCKFREQ (F * e / 1000000) startTime (startTime + e) ≤ F := by
  obtain ⟨h1, h2⟩ := clockFreq_bounds F e startTime he ht hfit
  unfold measuredCLOCKFREQ
  rw [Nat.mod_eq_of_lt (lt_of_le_of_lt h2 hF)]
  exact ⟨h1, h2⟩

/-- Witness of C7: a PAL C64 (985248 Hz) measured over 1,000,003 microseconds. -/
theorem clock_calibration_witness :
    985248 - 1 ≤ measuredCLOCKFREQ (985248 * 1000003 / 1000000) 5000000 (5000000 + 1000003)
    ∧ measuredCLOCKFREQ (985248 * 1000003 / 1000000) 5000000 (5000000 + 1000003) ≤ 985248 :=
  clock_calibration 985248 1000003 5000000 (by decide) (by decide) (by decide) (by decide)

/-- Counterexample to C7 as stated: F = 2^32 - 1 Hz and a window of 2^33
microseconds; the product of the cycle count and 1,000,000 wraps in 64 bits
and the stored frequency is 2147483646. -/
theorem clock_counterexample :
    (4294967295 : Nat) < U32 ∧ (1000000 : Nat) ≤ 8589934592
    ∧ 4294967295 * 8589934592 / 1000000 < U64
    ∧ measuredCLOCKFREQ (4294967295 * 8589934592 / 1000000) 0 8589934592 = 2147483646
    ∧ ¬ (4294967295 - 1 ≤ measuredCLOCKFREQ (4294967295 * 8589934592 / 1000000) 0 8589934592) := by
  decide

/-! ### initSID8 -/

theorem initChip_model (M D : Nat → Nat) : (initChip M D).model = chip_model.MOS8580 := by
  unfold initChip
  have h : ¬ (M 0 % 3 = 6581) := by omega
  dsimp only
  rw [if_neg h]
  split_ifs <;> rfl

/-- The chip model `initSID8` gives every instance is MOS8580, whatever
`SID_MODEL[ 0 ]` holds. -/
theorem initSID8_model (s : State) (i : Fin 8) :
    ((initSID8 s).sid i).model = chip_model.MOS8580 := by
  show (if (i : Nat) < NUM_SIDS then initChip s.SID_MODEL s.SID_DigiBoost else s.sid i).model = _
  rw [if_pos (show (i : Nat) < NUM_SIDS from i.isLt)]
  exact initChip_model _ _

/-- The configuration `initSID8` gives every instance depends on
`SID_DigiBoost[ 0 ]` alone: voice mask 0x07 and input 0 when it is zero,
voice mask 0x0f and input -32768 otherwise. -/
theorem initSID8_digiboost (s : State) (i : Fin 8) :
    ((initSID8 s).sid i).voice_mask = (if s.SID_DigiBoost 0 = 0 then 0x07 else 0x0f)
    ∧ ((initSID8 s).sid i).ext_in = (if s.SID_DigiBoost 0 = 0 then 0 else -32768) := by
  show (if (i : Nat) < NUM_SIDS then initChip s.SID_MODEL s.SID_DigiBoost else s.sid i).voice_mask
      = _ ∧
    (if (i : Nat) < NUM_SIDS then initChip s.SID_MODEL s.SID_DigiBoost else s.sid i).ext_in = _
  rw [if_pos (show (i : Nat) < NUM_SIDS from i.isLt)]
  unfold initChip
  have h : ¬ (s.SID_MODEL 0 % 3 = 6581) := by omega
  dsimp only
  rw [if_neg h]
  split_ifs <;> exact ⟨rfl, rfl⟩

/-- C8, the code at the failing input: with `SID_MODEL[ 0 ] = 6581` (and every
other entry 6581 as well) `initSID8` sets chip 0 and chip 7 to MOS8580, not
MOS6581. -/
theorem initSID8_6581_gives_8580 :
    ((initSID8 { powerOn 0 with SID_MODEL := fun _ => 6581 }).sid 0).model = chip_model.MOS8580
    ∧ ((initSID8 { powerOn 0 with SID_MODEL := fun _ => 6581 }).sid 7).model
        = chip_model.MOS8580
    ∧ ((initSID8 { powerOn 0 with SID_MODEL := fun _ => 6581 }).sid 0).model
        ≠ chip_model.MOS6581 := by
  decide

/-! ### The fixed-point carry -/

theorem carryStep_spec (F S c : Nat) (hF : F < U32) (hc : c < 65536)
    (hK : 65536 * F / S + 65535 < U32) :
    (carryStep F S c).1 = (65536 * F / S + c) / 65536
    ∧ (carryStep F S c).2 = (65536 * F / S + c) % 65536 := by
  unfold carryStep samplesX65536
  have h1 : 65536 * F % U64 = 65536 * F := by
    apply Nat.mod_eq_of_lt
    simp only [U32, U64] at hF ⊢
    omega
  have h2 : (65536 * F / S + c) % U64 % U32 = 65536 * F / S + c := by
    generalize 65536 * F / S = K at hK ⊢
    simp only [U32, U64] at hK ⊢
    omega
  dsimp only
  rw [h1, h2, Nat.shiftRight_eq_div_pow]
  have := Nat.and_pow_two_sub_one_eq_mod (65536 * F / S + c) 16
  norm_num at this ⊢
  exact this

theorem carryRun_spec (F S : Nat) (hF : F < U32) (hK : 65536 * F / S + 65535 < U32) :
    ∀ (N c0 : Nat), c0 < 65536 →
    (carryRun F S N c0).1 = (N * (65536 * F / S) + c0) / 65536
    ∧ (carryRun F S N c0).2 = (N * (65536 * F / S) + c0) % 65536 := by
  intro N
  induction N with
  | zero =>
    intro c0 hc
    simp only [carryRun, Nat.zero_mul, Nat.zero_add]
    omega
  | succ n ih =>
    intro c0 hc
    obtain ⟨s1, s2⟩ := carryStep_spec F S c0 hF hc hK
    have hc2 : (carryStep F S c0).2 < 65536 := by rw [s2]; omega
    obtain ⟨i1, i2⟩ := ih (carryStep F S c0).2 hc2
    simp only [carryRun]
    rw [i1, i2, s1, s2]
    generalize 65536 * F / S = K
    have e : (n + 1) * K = n * K + K := by ring
    rw [e]
    constructor <;> omega

/-- What one pass does to the clock parameters, the carry and the cycle
count. -/
theorem emulationStep_carry (pwm : Bool) (s : State) :
    (emulationStep pwm s).1.CLOCKFREQ = s.CLOCKFREQ
    ∧ (emulationStep pwm s).1.SAMPLERATE = s.SAMPLERATE
    ∧ (emulationStep pwm s).1.carrySamples
        = (carryStep s.CLOCKFREQ s.SAMPLERATE s.carrySamples).2
    ∧ (emulationStep pwm s).1.nCyclesEmulated
        = (s.nCyclesEmulated
            + cyclesToEmulate pwm (carryStep s.CLOCKFREQ s.SAMPLERATE s.carrySamples).1) % U64 := by
  unfold emulationStep drainOne
  dsimp only
  split_ifs <;> exact ⟨rfl, rfl, rfl, rfl⟩

/-- The carry and, in the build with `USE_PWM_DIRECT`, the cycle count after
`N` passes of the catch-up loop. -/
theorem steps_carry (F S : Nat) (hF : F < U32) (hK : 65536 * F / S + 65535 < U32)
    (s : State) (hsF : s.CLOCKFREQ = F) (hsS : s.SAMPLERATE = S) (hc : s.carrySamples < 65536) :
    ∀ (N : Nat),
    (run true (Trace.start s) (List.replicate N Action.step)).state.CLOCKFREQ = F
    ∧ (run true (Trace.start s) (List.replicate N Action.step)).state.SAMPLERATE = S
    ∧ (run true (Trace.start s) (List.replicate N Action.step)).state.carrySamples
        = (N * (65536 * F / S) + s.carrySamples) % 65536
    ∧ (run true (Trace.start s) (List.replicate N Action.step)).state.nCyclesEmulated % U64
        = (s.nCyclesEmulated + (N * (65536 * F / S) + s.carrySamples) / 65536) % U64 := by
  intro N
  induction N with
  | zero =>
    refine ⟨hsF, hsS, ?_, ?_⟩
    · show s.carrySamples = (0 * (65536 * F / S) + s.carrySamples) % 65536
      omega
    · show s.nCyclesEmulated % U64
        = (s.nCyclesEmulated + (0 * (65536 * F / S) + s.carrySamples) / 65536) % U64
      have : (0 * (65536 * F / S) + s.carrySamples) / 65536 = 0 := by omega
      rw [this, Nat.add_zero]
  | succ n ih =>
    obtain ⟨i1, i2, i3, i4⟩ := ih
    rw [run_steps_succ, (next_step_eq true _).1]
    obtain ⟨e1, e2, e3, e4⟩ := emulationStep_carry true
      (run true (Trace.start s) (List.replicate n Action.step)).state
    rw [e1, e2, e3, e4, i1, i2, i3]
    have hc2 : (n * (65536 * F / S) + s.carrySamples) % 65536 < 65536 :=
      Nat.mod_lt _ (by norm_num)
    obtain ⟨s1, s2⟩ := carryStep_spec F S _ hF hc2 hK
    rw [s1, s2]
    refine ⟨rfl, rfl, ?_, ?_⟩
    · generalize 65536 * F / S = K
      have e : (n + 1) * K = n * K + K := by ring
      rw [e]
      omega
    · show ((run true (Trace.start s) (List.replicate n Action.step)).state.nCyclesEmulated
          + (65536 * F / S + (n * (65536 * F / S) + s.carrySamples) % 65536) / 65536) % U64 % U64
        = _
      rw [Nat.mod_mod, Nat.add_mod, i4, ← Nat.add_mod]
      generalize 65536 * F / S = K
      have e : (n + 1) * K = n * K + K := by ring
      rw [e]
      congr 1
      omega

/-- C9: with K = floor(65536 * CLOCKFREQ / SAMPLERATE) and K + 65535 < 2^32,
one pass maps a carry c < 65536 to (n, c') with n * 65536 + c' = K + c and
c' < 65536; over N consecutive passes from carry c0 the integer parts sum to
floor((N * K + c0) / 65536), the carry left being (N * K + c0) mod 65536; and
in the build that emulates the samples due (`USE_PWM_DIRECT`) N passes advance
nCyclesEmulated by exactly floor((N * K + c0) / 65536). -/
theorem carry_lossless (CLOCKFREQ SAMPLERATE : Nat) (hF : CLOCKFREQ < U32)
    (_hS : 0 < SAMPLERATE) (hK : 65536 * CLOCKFREQ / SAMPLERATE + 65535 < U32) :
    (∀ c, c < 65536 →
      (carryStep CLOCKFREQ SAMPLERATE c).1 * 65536 + (carryStep CLOCKFREQ SAMPLERATE c).2
          = 65536 * CLOCKFREQ / SAMPLERATE + c
      ∧ (carryStep CLOCKFREQ SAMPLERATE c).2 < 65536)
    ∧ (∀ N c0, c0 < 65536 →
      (carryRun CLOCKFREQ SAMPLERATE N c0).1
          = (N * (65536 * CLOCKFREQ / SAMPLERATE) + c0) / 65536
      ∧ (carryRun CLOCKFREQ SAMPLERATE N c0).2
          = (N * (65536 * CLOCKFREQ / SAMPLERATE) + c0) % 65536)
    ∧ (∀ (s : State) (N : Nat), s.CLOCKFREQ = CLOCKFREQ → s.SAMPLERATE = SAMPLERATE →
      s.carrySamples < 65536 →
      (run true (Trace.start s) (List.replicate N Action.step)).state.carrySamples
          = (N * (65536 * CLOCKFREQ / SAMPLERATE) + s.carrySamples) % 65536
      ∧ (run true (Trace.start s) (List.replicate N Action.step)).state.nCyclesEmulated % U64
          = (s.nCyclesEmulated
              + (N * (65536 * CLOCKFREQ / SAMPLERATE) + s.carrySamples) / 65536) % U64) := by
  refine ⟨?_, carryRun_spec CLOCKFREQ SAMPLERATE hF hK, ?_⟩
  · intro c hc
    obtain ⟨s1, s2⟩ := carryStep_spec CLOCKFREQ SAMPLERATE c hF hc hK
    rw [s1, s2]
    omega
  · intro s N h1 h2 h3
    obtain ⟨_, _, r3, r4⟩ := steps_carry CLOCKFREQ SAMPLERATE hF hK s h1 h2 h3 N
    exact ⟨r3, r4⟩

/-- Witness of C9: the default CLOCKFREQ 985248 and SAMPLERATE 44100, for which
K = 1464154; three passes from carry 0 yield 22 + 22 + 23 = 67 samples. -/
theorem carry_lossless_witness :
    65536 * 985248 / 44100 = 1464154
    ∧ (carryRun 985248 44100 3 0).1 = (3 * (65536 * 985248 / 44100) + 0) / 65536
    ∧ (carryRun 985248 44100 3 0).1 = 67 :=
  ⟨by decide,
    ((carry_lossless 985248 44100 (by decide) (by decide) (by decide)).2.1 3 0 (by decide)).1,
    by decide⟩

/-! ### Reset debounce -/

theorem FIQHandler_reset (s : State) (b : BusCycle) :
    (FIQHandler s b).1.resetCounter = (sampleReset s b.CPU_RESET).resetCounter
    ∧ (FIQHandler s b).1.resetPressed = (sampleReset s b.CPU_RESET).resetPressed
    ∧ (FIQHandler s b).1.resetReleased = (sampleReset s b.CPU_RESET).resetReleased := by
  unfold FIQHandler
  dsimp only
  split_ifs <;> exact ⟨rfl, rfl, rfl⟩

theorem handleAll_cons (s : State) (b : BusCycle) (bs : List BusCycle) :
    handleAll s (b :: bs) = handleAll (FIQHandler s b).1 bs := rfl

theorem handleAll_append (s : State) (as bs : List BusCycle) :
    handleAll s (as ++ bs) = handleAll (handleAll s as) bs := by
  unfold handleAll
  rw [List.foldl_append]

theorem sampleReset_counter (s : State) (r : Bool) :
    (sampleReset s r).resetCounter
      = if r then (s.resetCounter + 1) % U32 else s.resetCounter := by
  unfold sampleReset
  cases r <;> simp

/-- The reset counter after a sequence of bus cycles: the cycles with the
reset line asserted are added up, whether or not they are consecutive. -/
theorem handleAll_resetCounter (bs : List BusCycle) : ∀ (s : State),
    (handleAll s bs).resetCounter % U32 = (s.resetCounter + assertedCycles bs) % U32 := by
  induction bs with
  | nil => intro s; rfl
  | cons b bs ih =>
    intro s
    rw [handleAll_cons, ih, (FIQHandler_reset s b).1, sampleReset_counter]
    unfold assertedCycles
    cases hb : b.CPU_RESET
    · simp [List.filter_cons, hb]
    · simp only [List.filter_cons, hb, if_true, List.length_cons]
      simp only [U32]
      omega

theorem handleAll_resetCounter_lt (bs : List BusCycle) : ∀ (s : State),
    s.resetCounter < U32 → (handleAll s bs).resetCounter < U32 := by
  induction bs with
  | nil => intro s h; exact h
  | cons b bs ih =>
    intro s h
    rw [handleAll_cons]
    apply ih
    rw [(FIQHandler_reset s b).1, sampleReset_counter]
    split_ifs
    · exact Nat.mod_lt _ (by simp [U32])
    · exact h

/-- C10 (amended): from a state with resetCounter = 0, after any sequence of
bus cycles the reset condition of the main loop holds only if the reset line
was asserted in more than 3 of them in total (consecutive or not); a sequence
whose asserted cycles add up to at most 3 leaves the reset handling without
effect; and when more than 3 cycles were asserted and the last two cycles are
an asserted one and a released one, the condition holds. -/
theorem reset_debounce (s : State) (bs : List BusCycle) (h0 : s.resetCounter = 0) :
    (resetCondition (handleAll s bs) → 3 < assertedCycles bs)
    ∧ (assertedCycles bs ≤ 3 → resetAction (handleAll s bs) = handleAll s bs)
    ∧ (∀ a r, a.CPU_RESET = true → r.CPU_RESET = false →
        3 < assertedCycles (bs ++ [a, r]) → assertedCycles (bs ++ [a, r]) < U32 →
        resetCondition (handleAll s (bs ++ [a, r]))) := by
  have key : ∀ l, (handleAll s l).resetCounter = assertedCycles l % U32 := by
    intro l
    have h1 := handleAll_resetCounter l s
    have h2 := handleAll_resetCounter_lt l s (by rw [h0]; simp [U32])
    rw [Nat.mod_eq_of_lt h2, h0, Nat.zero_add] at h1
    exact h1
  have hfire : resetCondition (handleAll s bs) → 3 < assertedCycles bs := by
    intro hc
    have h3 := hc.1
    rw [key] at h3
    have := Nat.mod_le (assertedCycles bs) U32
    omega
  refine ⟨hfire, ?_, ?_⟩
  · intro hle
    unfold resetAction
    rw [if_neg]
    intro hc
    have := hfire hc
    omega
  · intro a r ha hr h3 hlt
    refine ⟨?_, ?_⟩
    · rw [key, Nat.mod_eq_of_lt hlt]
      exact h3
    · have e : bs ++ [a, r] = (bs ++ [a]) ++ [r] := by simp
      rw [e, handleAll_append, handleAll_append]
      show (FIQHandler (FIQHandler (handleAll s bs) a).1 r).1.resetReleased ≠ 0
      rw [(FIQHandler_reset _ r).2.2, hr]
      have hp : (FIQHandler (handleAll s bs) a).1.resetPressed = 1 := by
        rw [(FIQHandler_reset _ a).2.1, ha]
        rfl
      unfold sampleReset
      simp [hp]

/-- Witness of C10: four separate assertions of two cycles each, from the
start state: eight asserted cycles in total, and the reset condition holds. -/
theorem reset_debounce_witness :
    3 < assertedCycles
      ((List.replicate 4 [(⟨true, false, false, false, 0, 0, 0⟩ : BusCycle),
        ⟨true, false, false, false, 0, 0, 0⟩, ⟨false, false, false, false, 0, 0, 0⟩]).flatten) :=
  (reset_debounce (startState 0)
    ((List.replicate 4 [(⟨true, false, false, false, 0, 0, 0⟩ : BusCycle),
        ⟨true, false, false, false, 0, 0, 0⟩, ⟨false, false, false, false, 0, 0, 0⟩]).flatten)
    rfl).1 (by decide)

/-- Counterexample to C10 as stated: four assertions of one cycle each, every
one followed by a release.  No assertion is longer than one cycle, yet the
reset condition holds afterwards and the reset handling clears register 0 of
chip 0. -/
theorem reset_debounce_counterexample :
    longestAssertion ((List.replicate 4 [(⟨true, false, false, false, 0, 0, 0⟩ : BusCycle),
        ⟨false, false, false, false, 0, 0, 0⟩]).flatten.map (fun b => b.CPU_RESET)) = 1
    ∧ resetCondition (handleAll
        { startState 0 with sid := fun _ => { SID.fresh with regs := fun _ => 0xFF } }
        (List.replicate 4 [(⟨true, false, false, false, 0, 0, 0⟩ : BusCycle),
          ⟨false, false, false, false, 0, 0, 0⟩]).flatten)
    ∧ ((handleAll
        { startState 0 with sid := fun _ => { SID.fresh with regs := fun _ => 0xFF } }
        (List.replicate 4 [(⟨true, false, false, false, 0, 0, 0⟩ : BusCycle),
          ⟨false, false, false, false, 0, 0, 0⟩]).flatten).sid 0).read 0 = 0xFF
    ∧ ((resetAction (handleAll
        { startState 0 with sid := fun _ => { SID.fresh with regs := fun _ => 0xFF } }
        (List.replicate 4 [(⟨true, false, false, false, 0, 0, 0⟩ : BusCycle),
          ⟨false, false, false, false, 0, 0, 0⟩]).flatten)).sid 0).read 0 = 0 := by
  decide

/-! ### The catch-up loop -/

theorem drainOne_cycles (s : State) (i : Nat) :
    ((drainOne s).1.sid i).cycles = (s.sid i).cycles := by
  unfold drainOne
  dsimp only
  split_ifs with h
  · show (store s.sid _ _ i).cycles = _
    unfold store
    split_ifs with hi
    · rw [hi]; rfl
    · rfl
  · rfl

/-- In the buffered-audio build one pass advances each of the eight chips by
two cycles, whatever the ring buffer holds. -/
theorem emulationStep_chip_cycles (s : State) (i : Nat) (hi : i < NUM_SIDS) :
    ((emulationStep false s).1.sid i).cycles = (s.sid i).cycles + 2 := by
  unfold emulationStep
  rw [drainOne_cycles]
  show (if i < NUM_SIDS then (s.sid i).clock _ else s.sid i).cycles = _
  rw [if_pos hi]
  rfl

theorem emulationStep_buffered_cycles (s : State) :
    (emulationStep false s).1.nCyclesEmulated = (s.nCyclesEmulated + 2) % U64 :=
  (emulationStep_carry false s).2.2.2

/-- The catch-up loop of the buffered-audio build, when the cycle count does
not wrap: it ends after `(T - E + 1) / 2` passes. -/
theorem catchUp_spec (T : Nat) : ∀ (fuel : Nat) (s : State),
    s.nCyclesEmulated + 2 * ((T - s.nCyclesEmulated + 1) / 2) < U64 →
    (T - s.nCyclesEmulated + 1) / 2 ≤ fuel →
    ∃ s', catchUp false T fuel s = some (s', (T - s.nCyclesEmulated + 1) / 2)
      ∧ s'.nCyclesEmulated = s.nCyclesEmulated + 2 * ((T - s.nCyclesEmulated + 1) / 2)
      ∧ ∀ i, i < NUM_SIDS →
          (s'.sid i).cycles = (s.sid i).cycles + 2 * ((T - s.nCyclesEmulated + 1) / 2) := by
  intro fuel
  induction fuel with
  | zero =>
    intro s _ hfuel
    have hk : (T - s.nCyclesEmulated + 1) / 2 = 0 := by omega
    have hle : ¬ (T > s.nCyclesEmulated) := by omega
    refine ⟨s, ?_, ?_, ?_⟩
    · rw [hk]
      unfold catchUp
      rw [if_neg hle]
    · rw [hk]; rfl
    · intro i _; rw [hk]; rfl
  | succ fuel ih =>
    intro s hfit hfuel
    by_cases hgt : T > s.nCyclesEmulated
    · have hstep := emulationStep_buffered_cycles s
      have hk : (T - s.nCyclesEmulated + 1) / 2
          = (T - (s.nCyclesEmulated + 2) + 1) / 2 + 1 := by omega
      have hn : (emulationStep false s).1.nCyclesEmulated = s.nCyclesEmulated + 2 := by
        rw [hstep]
        apply Nat.mod_eq_of_lt
        omega
      obtain ⟨s', h1, h3, h4⟩ := ih (emulationStep false s).1
        (by rw [hn]; omega) (by rw [hn]; omega)
      rw [hn] at h1 h3 h4
      refine ⟨s', ?_, ?_, ?_⟩
      · rw [hk]
        show (if T > s.nCyclesEmulated then
            (catchUp false T fuel (emulationStep false s).1).map (fun r => (r.1, r.2 + 1))
          else some (s, 0)) = _
        rw [if_pos hgt, h1]
        rfl
      · rw [h3, hk]; omega
      · intro i hi
        rw [h4 i hi, emulationStep_chip_cycles s i hi, hk]
        omega
    · have hk : (T - s.nCyclesEmulated + 1) / 2 = 0 := by omega
      refine ⟨s, ?_, ?_, ?_⟩
      · rw [hk]
        show (if T > s.nCyclesEmulated then _ else some (s, 0)) = _
        rw [if_neg hgt]
      · rw [hk]; rfl
      · intro i _; rw [hk]; rfl

/-- With less fuel than passes needed the loop has not ended. -/
theorem catchUp_short (T : Nat) : ∀ (fuel : Nat) (s : State),
    s.nCyclesEmulated + 2 * ((T - s.nCyclesEmulated + 1) / 2) < U64 →
    fuel < (T - s.nCyclesEmulated + 1) / 2 →
    catchUp false T fuel s = none := by
  intro fuel
  induction fuel with
  | zero =>
    intro s _ hlt
    have hgt : T > s.nCyclesEmulated := by omega
    unfold catchUp
    rw [if_pos hgt]
  | succ fuel ih =>
    intro s hfit hlt
    have hgt : T > s.nCyclesEmulated := by omega
    have hn : (emulationStep false s).1.nCyclesEmulated = s.nCyclesEmulated + 2 := by
      rw [emulationStep_buffered_cycles]
      apply Nat.mod_eq_of_lt
      omega
    have h := ih (emulationStep false s).1 (by rw [hn]; omega) (by rw [hn]; omega)
    show (if T > s.nCyclesEmulated then
        (catchUp false T fuel (emulationStep false s).1).map (fun r => (r.1, r.2 + 1))
      else some (s, 0)) = none
    rw [if_pos hgt, h]
    rfl

/-- From an even cycle count the loop of the buffered-audio build never ends
when the sampled target is `2^64 - 1`: the count wraps from `2^64 - 2` to 0. -/
theorem catchUp_wraps : ∀ (fuel : Nat) (s : State),
    s.nCyclesEmulated % 2 = 0 → s.nCyclesEmulated < U64 →
    catchUp false (U64 - 1) fuel s = none := by
  intro fuel
  induction fuel with
  | zero =>
    intro s h1 h2
    have hgt : U64 - 1 > s.nCyclesEmulated := by
      simp only [U64] at h2 ⊢
      omega
    unfold catchUp
    rw [if_pos hgt]
  | succ fuel ih =>
    intro s h1 h2
    have hgt : U64 - 1 > s.nCyclesEmulated := by
      simp only [U64] at h2 ⊢
      omega
    have hn := emulationStep_buffered_cycles s
    have h := ih (emulationStep false s).1
      (by rw [hn]; simp only [U64] at h2 ⊢; omega)
      (by rw [hn]; exact Nat.mod_lt _ (by simp [U64]))
    show (if U64 - 1 > s.nCyclesEmulated then
        (catchUp false (U64 - 1) fuel (emulationStep false s).1).map (fun r => (r.1, r.2 + 1))
      else some (s, 0)) = none
    rw [if_pos hgt, h]
    rfl

/-- C11 (amended): in the buffered-audio build, for every sampled target T and
every state with nCyclesEmulated = E such that the cycle count does not wrap
(E + 2 * ceil(max(T - E, 0) / 2) < 2^64), the catch-up loop ends after exactly
ceil(max(T - E, 0) / 2) passes whatever the ring buffer holds, with
T <= nCyclesEmulated < T + 2 when E < T and in the unchanged state when
E >= T; every pass advances each of the eight chips by the same two cycles,
and the cycles each chip was advanced by equal the increase of
nCyclesEmulated. -/
theorem catchUp_lockstep (T fuel : Nat) (s : State)
    (hfit : s.nCyclesEmulated + 2 * ((T - s.nCyclesEmulated + 1) / 2) < U64)
    (hfuel : (T - s.nCyclesEmulated + 1) / 2 ≤ fuel) :
    (∃ s', catchUp false T fuel s = some (s', (T - s.nCyclesEmulated + 1) / 2)
      ∧ (s.nCyclesEmulated < T → T ≤ s'.nCyclesEmulated ∧ s'.nCyclesEmulated < T + 2)
      ∧ (T ≤ s.nCyclesEmulated → s' = s)
      ∧ s.nCyclesEmulated ≤ s'.nCyclesEmulated
      ∧ ∀ i, i < NUM_SIDS →
          (s'.sid i).cycles = (s.sid i).cycles + (s'.nCyclesEmulated - s.nCyclesEmulated))
    ∧ (∀ f, f < (T - s.nCyclesEmulated + 1) / 2 → catchUp false T f s = none)
    ∧ (∀ (x : State) (i : Nat), i < NUM_SIDS →
        ((emulationStep false x).1.sid i).cycles = (x.sid i).cycles + 2) := by
  refine ⟨?_, fun f hf => catchUp_short T f s hfit hf,
    fun x i hi => emulationStep_chip_cycles x i hi⟩
  obtain ⟨s', h1, h2, h3⟩ := catchUp_spec T fuel s hfit hfuel
  refine ⟨s', h1, ?_, ?_, by omega, ?_⟩
  · intro hlt
    omega
  · intro hle
    have hk : (T - s.nCyclesEmulated + 1) / 2 = 0 := by omega
    have hnot : ¬ (T > s.nCyclesEmulated) := by omega
    have hres : catchUp false T fuel s = some (s, 0) := by
      cases fuel with
      | zero => unfold catchUp; rw [if_neg hnot]
      | succ f =>
        show (if T > s.nCyclesEmulated then _ else some (s, 0)) = _
        rw [if_neg hnot]
    rw [hres] at h1
    injection h1 with h1
    injection h1 with h1
    exact h1.symm
  · intro i hi
    rw [h3 i hi, h2]
    omega

/-- Witness of C11: a write pending for cycle 100 and the target T = 101 from
nCyclesEmulated = 0: the loop ends after 51 passes with nCyclesEmulated = 102. -/
theorem catchUp_lockstep_witness :
    ∃ s', catchUp false 101 60 (FIQHandler { startState 0 with cycleCountC64 := 99 }
        ⟨false, false, true, true, 0x85, 0, 0x3F⟩).1 = some (s', 51)
      ∧ 101 ≤ s'.nCyclesEmulated ∧ s'.nCyclesEmulated < 101 + 2 := by
  obtain ⟨s', h1, h2, _⟩ := (catchUp_lockstep 101 60
    (FIQHandler { startState 0 with cycleCountC64 := 99 }
        ⟨false, false, true, true, 0x85, 0, 0x3F⟩).1 (by decide) (by decide)).1
  exact ⟨s', h1, h2 (by decide)⟩

/-- Counterexample to C11 as stated: T = 2^64 - 1 and E = 2^64 - 2.  The claim
gives ceil(1 / 2) = 1 pass; the one pass wraps nCyclesEmulated to 0, the loop
has not ended after it, and it ends for no amount of fuel. -/
theorem catchUp_counterexample :
    (U64 - 1 - (U64 - 2) + 1) / 2 = 1
    ∧ (emulationStep false { startState 0 with nCyclesEmulated := U64 - 2 }).1.nCyclesEmulated = 0
    ∧ catchUp false (U64 - 1) 1 { startState 0 with nCyclesEmulated := U64 - 2 } = none
    ∧ ¬ ∃ fuel, (catchUp false (U64 - 1) fuel
        { startState 0 with nCyclesEmulated := U64 - 2 }).isSome = true := by
  refine ⟨by decide, by decide, catchUp_wraps 1 _ (by decide) (by decide), ?_⟩
  rintro ⟨fuel, h⟩
  rw [catchUp_wraps fuel _ (by decide) (by decide)] at h
  exact absurd h (by decide)

/-! ### What remains retrievable after an overflow -/

theorem sampleReset_counts (s : State) (r : Bool) :
    (sampleReset s r).nCyclesEmulated = s.nCyclesEmulated := by
  unfold sampleReset
  cases r <;> rfl

/-- The handler counts the bus cycle and leaves `nCyclesEmulated` alone. -/
theorem FIQHandler_counts (s : State) (b : BusCycle) :
    (FIQHandler s b).1.cycleCountC64 = (s.cycleCountC64 + 1) % U64
    ∧ (FIQHandler s b).1.nCyclesEmulated = s.nCyclesEmulated := by
  have h5 := (sampleReset_ring s b.CPU_RESET).2.2.2.2.1
  have h6 := sampleReset_counts s b.CPU_RESET
  unfold FIQHandler
  dsimp only
  split_ifs <;> simp [enqueueWrite, countCycle, h5, h6]

/-- A write cycle appends one event, stamped with the cycle count after the
increment. -/
theorem next_write_stamp (pwm : Bool) (t : Trace) (b : BusCycle) (hb : isWriteCycle b) :
    (t.next pwm (Action.bus b)).enqueued.map BusEvent.atCycle
        = t.enqueued.map BusEvent.atCycle ++ [(t.state.cycleCountC64 + 1) % U64]
    ∧ (t.next pwm (Action.bus b)).state.cycleCountC64 = (t.state.cycleCountC64 + 1) % U64
    ∧ (t.next pwm (Action.bus b)).state.nCyclesEmulated = t.state.nCyclesEmulated := by
  obtain ⟨e, he⟩ := FIQHandler_write t.state b hb
  obtain ⟨_, h2⟩ := FIQHandler_ring t.state b
  obtain ⟨c1, c2⟩ := FIQHandler_counts t.state b
  have hnext : t.next pwm (Action.bus b)
      = ⟨(FIQHandler t.state b).1, t.enqueued ++ [e], t.applied⟩ := by
    show t.recordBus (FIQHandler t.state b) = _
    unfold Trace.recordBus
    rw [he]
  rcases h2 with ⟨e2, he2, hev, _⟩ | ⟨hne, _⟩
  · rw [he] at he2
    injection he2 with he2
    rw [hnext]
    refine ⟨?_, c1, c2⟩
    show (t.enqueued ++ [e]).map BusEvent.atCycle = _
    rw [List.map_append, he2, hev]
    rfl
  · exact absurd he (hne e)

/-- The time stamps of the events enqueued by write cycles are consecutive
cycle counts, as long as the cycle counter does not wrap. -/
theorem run_writes_stamps (pwm : Bool) (bs : List BusCycle) : ∀ (t : Trace),
    (∀ b ∈ bs, isWriteCycle b) → t.state.cycleCountC64 + bs.length < U64 →
    (run pwm t (bs.map Action.bus)).enqueued.map BusEvent.atCycle
        = t.enqueued.map BusEvent.atCycle ++ List.range' (t.state.cycleCountC64 + 1) bs.length
    ∧ (run pwm t (bs.map Action.bus)).state.nCyclesEmulated = t.state.nCyclesEmulated := by
  induction bs with
  | nil =>
    intro t _ _
    exact ⟨by simp [run_nil], rfl⟩
  | cons b bs ih =>
    intro t hb hlt
    rw [List.length_cons] at hlt
    obtain ⟨n1, n2, n3⟩ := next_write_stamp pwm t b (hb b (List.mem_cons_self _ _))
    have hc : (t.state.cycleCountC64 + 1) % U64 = t.state.cycleCountC64 + 1 :=
      Nat.mod_eq_of_lt (by omega)
    rw [hc] at n1 n2
    obtain ⟨i1, i2⟩ := ih (t.next pwm (Action.bus b))
      (fun x hx => hb x (List.mem_cons_of_mem _ hx)) (by rw [n2]; omega)
    rw [List.map_cons, run_cons, i1, i2, n1, n2, n3, List.length_cons, List.range'_succ,
      List.append_assoc]
    exact ⟨rfl, rfl⟩

/-- One pass on a trace: either the head of the pending entries is applied,
or nothing is applied and the pending entries stay. -/
theorem next_step_pending (pwm : Bool) (t : Trace)
    (hr : t.state.ringRead < RING_SIZE) (hw : t.state.ringWrite < RING_SIZE) :
    (∃ a, (t.next pwm Action.step).applied = t.applied ++ [a]
        ∧ pendingEvents t.state = a.event :: pendingEvents (t.next pwm Action.step).state)
    ∨ ((t.next pwm Action.step).applied = t.applied
        ∧ pendingEvents (t.next pwm Action.step).state = pendingEvents t.state
        ∧ (emulationStep pwm t.state).2 = none) := by
  obtain ⟨e1, e2⟩ := next_step_eq pwm t
  obtain ⟨hbuf, htm, hwr, h2⟩ := emulationStep_ring pwm t.state
  rcases h2 with ⟨a, ha, hne, hev, _, hrd⟩ | ⟨hnone, hrd⟩
  · left
    refine ⟨a, ?_, ?_⟩
    · rw [e2, ha]; rfl
    · rw [e1]
      unfold pendingEvents
      rw [hbuf, htm, hwr, hrd, pendingOf_pop _ _ _ _ hr hw hne, hev]
  · right
    refine ⟨?_, ?_, hnone⟩
    · rw [e2, hnone]; simp
    · rw [e1]
      unfold pendingEvents
      rw [hbuf, htm, hwr, hrd]

/-- In the buffered-audio build, when every pending entry is stamped at most
`M` and the cycle count does not wrap, the passes it takes to reach `M` and
one more for each pending entry apply all pending entries, in order. -/
theorem drain_pending (base : List BusEvent) (M : Nat) : ∀ (n : Nat) (t : Trace),
    RingInv base t → (∀ e ∈ pendingEvents t.state, e.atCycle ≤ M) →
    t.state.nCyclesEmulated + 2 * n < U64 →
    (M - t.state.nCyclesEmulated + 1) / 2 + (pendingEvents t.state).length ≤ n →
    (run false t (List.replicate n Action.step)).applied.map Applied.event
      = t.applied.map Applied.event ++ pendingEvents t.state := by
  intro n
  induction n with
  | zero =>
    intro t _ _ _ hn
    have hl : (pendingEvents t.state).length = 0 := by omega
    rw [List.length_eq_zero.mp hl]
    simp [run_nil]
  | succ n ih =>
    intro t hinv hM hfit hn
    have hinv2 : RingInv base (t.next false Action.step) := by
      apply RingInv_next false base t _ hinv
      · intro b hb
        cases hb
      · obtain ⟨l1, l2⟩ := next_step_logs false t
        have hlen : t.enqueued.length
            = base.length + t.applied.length + pendingCount t.state := by
          rw [hinv.2.2.1, List.length_append, List.length_append, List.length_map,
            pendingEvents_length]
        have := pendingCount_lt t.state
        rw [l1]
        omega
    have hcyc : (t.next false Action.step).state.nCyclesEmulated
        = t.state.nCyclesEmulated + 2 := by
      rw [(next_step_eq false t).1, emulationStep_buffered_cycles]
      exact Nat.mod_eq_of_lt (by omega)
    rw [List.replicate_succ, run_cons]
    rcases next_step_pending false t hinv.1 hinv.2.1 with ⟨a, ha, hp⟩ | ⟨ha, hp, hnone⟩
    · rw [ih (t.next false Action.step) hinv2
        (fun e he => hM e (by rw [hp]; exact List.mem_cons_of_mem _ he))
        (by rw [hcyc]; omega)
        (by
          rw [hcyc]
          rw [hp, List.length_cons] at hn
          omega)]
      rw [ha, hp]
      simp
    · by_cases hl : (pendingEvents t.state).length = 0
      · rw [ih (t.next false Action.step) hinv2 (fun e he => hM e (by rw [← hp]; exact he))
          (by rw [hcyc]; omega) (by rw [hcyc, hp]; omega)]
        rw [ha, hp]
      · by_cases hgt : t.state.nCyclesEmulated < M
        · rw [ih (t.next false Action.step) hinv2 (fun e he => hM e (by rw [← hp]; exact he))
            (by rw [hcyc]; omega) (by rw [hcyc, hp]; omega)]
          rw [ha, hp]
        · exfalso
          have hne : t.state.ringRead ≠ t.state.ringWrite := by
            intro heq
            apply hl
            unfold pendingEvents
            rw [← heq, pendingOf_empty]
            rfl
          have hhead : slotEvent t.state.ringBufGPIO t.state.ringTime t.state.ringRead
              ∈ pendingEvents t.state := by
            unfold pendingEvents
            rw [pendingOf_pop _ _ _ _ hinv.1 hinv.2.1 hne]
            exact List.mem_cons_self _ _
          have hle : t.state.ringTime t.state.ringRead ≤ M := hM _ hhead
          have hdue := (emulationStep_due false t.state hne (by
            rw [emulationStep_buffered_cycles, Nat.mod_eq_of_lt (by omega)]
            omega)).1
          rw [hnone] at hdue
          cases hdue

/-- C4 (amended): write cycles without any pass of the scheduler leave the
read index where it was, the write index wraps around it, and of n enqueued
events the pending ones are the last n mod RING_SIZE, in the order of
enqueueing; whatever the scheduler takes afterwards is an initial part of
these.  While the cycle counter does not wrap, the events carry consecutive,
strictly increasing time stamps, none of the older events is among the
pending ones, and in the buffered-audio build the scheduler applies all
pending events, in order, once it has made the passes needed to reach the
last stamp and one more for each pending event.  After RING_SIZE + 10
enqueues the pending events are the last 10. -/
theorem overflow_wraps (pwm : Bool) (s : State) (bs : List BusCycle)
    (hr : s.ringRead < RING_SIZE) (he : s.ringWrite = s.ringRead)
    (hb : ∀ b ∈ bs, isWriteCycle b ∧ b.D0to7 < 256) :
    (run pwm (Trace.start s) (bs.map Action.bus)).state.ringRead = s.ringRead
    ∧ (run pwm (Trace.start s) (bs.map Action.bus)).enqueued.length = bs.length
    ∧ pendingEvents (run pwm (Trace.start s) (bs.map Action.bus)).state
        = (run pwm (Trace.start s) (bs.map Action.bus)).enqueued.drop
            (bs.length - bs.length % RING_SIZE)
    ∧ (pendingEvents (run pwm (Trace.start s) (bs.map Action.bus)).state).length
        = bs.length % RING_SIZE
    ∧ (∀ n, (run pwm (run pwm (Trace.start s) (bs.map Action.bus))
          (List.replicate n Action.step)).applied.map Applied.event
        <+: pendingEvents (run pwm (Trace.start s) (bs.map Action.bus)).state)
    ∧ (s.cycleCountC64 + bs.length < U64 →
        (run pwm (Trace.start s) (bs.map Action.bus)).enqueued.map BusEvent.atCycle
            = List.range' (s.cycleCountC64 + 1) bs.length
        ∧ (∀ e ∈ (run pwm (Trace.start s) (bs.map Action.bus)).enqueued.take
              (bs.length - bs.length % RING_SIZE),
            e ∉ pendingEvents (run pwm (Trace.start s) (bs.map Action.bus)).state)
        ∧ (∀ n, s.nCyclesEmulated + 2 * n < U64 →
            (s.cycleCountC64 + bs.length - s.nCyclesEmulated + 1) / 2
              + bs.length % RING_SIZE ≤ n →
            (run false (run pwm (Trace.start s) (bs.map Action.bus))
              (List.replicate n Action.step)).applied.map Applied.event
              = pendingEvents (run pwm (Trace.start s) (bs.map Action.bus)).state)) := by
  obtain ⟨h1, h2, h3, h4, h5, base, h6⟩ := writes_wrap pwm s bs hr he hb
  refine ⟨h1, h2, h3, h4, fun n => steps_take_pending pwm base _ n h6 h5, ?_⟩
  intro hc
  obtain ⟨i1, i2⟩ := run_writes_stamps pwm bs (Trace.start s) (fun b h => (hb b h).1) hc
  have hst : (run pwm (Trace.start s) (bs.map Action.bus)).enqueued.map BusEvent.atCycle
      = List.range' (s.cycleCountC64 + 1) bs.length := by
    rw [i1]
    rfl
  have hnd : (run pwm (Trace.start s) (bs.map Action.bus)).enqueued.Nodup :=
    List.Nodup.of_map BusEvent.atCycle (by rw [hst]; exact List.nodup_range' _ _)
  refine ⟨hst, ?_, ?_⟩
  · intro e hin hpend
    rw [h3] at hpend
    rw [← List.take_append_drop (bs.length - bs.length % RING_SIZE)
      (run pwm (Trace.start s) (bs.map Action.bus)).enqueued] at hnd
    exact List.disjoint_of_nodup_append hnd hin hpend
  · intro n hfit hn
    have hM : ∀ e ∈ pendingEvents (run pwm (Trace.start s) (bs.map Action.bus)).state,
        e.atCycle ≤ s.cycleCountC64 + bs.length := by
      intro e hin
      rw [h3] at hin
      have hmem : e.atCycle
          ∈ (run pwm (Trace.start s) (bs.map Action.bus)).enqueued.map BusEvent.atCycle :=
        List.mem_map_of_mem _ (List.mem_of_mem_drop hin)
      rw [hst] at hmem
      have := (List.mem_range'_1.mp hmem).2
      omega
    have hres := drain_pending base (s.cycleCountC64 + bs.length) n
      (run pwm (Trace.start s) (bs.map Action.bus)) h6 hM
      (by rw [i2]; exact hfit)
      (by rw [i2, h4]; exact hn)
    rw [hres, h5]
    rfl


theorem wrap_arith : (RING_SIZE + 10) % RING_SIZE = 10
    ∧ RING_SIZE + 10 - (RING_SIZE + 10) % RING_SIZE = RING_SIZE := by
  rw [RING_SIZE_eq]
  constructor <;> norm_num

/-- Witness of C4: RING_SIZE + 10 write cycles from the start state; the last
10 events are pending, and 65551 passes of the buffered-audio build apply
exactly these, in order. -/
theorem overflow_wraps_witness :
    pendingEvents (run false (Trace.start (startState 0))
        ((List.replicate (RING_SIZE + 10)
          (⟨false, false, true, true, 0x85, 0, 0x3F⟩ : BusCycle)).map Action.bus)).state
      = (run false (Trace.start (startState 0))
        ((List.replicate (RING_SIZE + 10)
          (⟨false, false, true, true, 0x85, 0, 0x3F⟩ : BusCycle)).map Action.bus)).enqueued.drop
          RING_SIZE
    ∧ (run false (run false (Trace.start (startState 0))
        ((List.replicate (RING_SIZE + 10)
          (⟨false, false, true, true, 0x85, 0, 0x3F⟩ : BusCycle)).map Action.bus))
        (List.replicate 65551 Action.step)).applied.map Applied.event
      = pendingEvents (run false (Trace.start (startState 0))
        ((List.replicate (RING_SIZE + 10)
          (⟨false, false, true, true, 0x85, 0, 0x3F⟩ : BusCycle)).map Action.bus)).state := by
  have h := overflow_wraps false (startState 0)
    (List.replicate (RING_SIZE + 10) (⟨false, false, true, true, 0x85, 0, 0x3F⟩ : BusCycle))
    (by decide) (by decide)
    (by
      intro b hb
      rw [List.eq_of_mem_replicate hb]
      exact ⟨⟨rfl, rfl, rfl⟩, by decide⟩)
  rw [List.length_replicate, wrap_arith.2, wrap_arith.1] at h
  refine ⟨h.2.2.1, ?_⟩
  exact (h.2.2.2.2.2 (by rw [RING_SIZE_eq]; decide)).2.2 65551 (by decide)
    (by rw [RING_SIZE_eq]; decide)

/-- Counterexample to C4 as stated: after RING_SIZE + 10 write cycles from the
start state, without any pass of the scheduler, RING_SIZE + 10 events were
enqueued, 10 entries and not RING_SIZE are pending, and the read index is
still 0. -/
theorem overflow_counterexample :
    (run false (Trace.start (startState 0))
        ((List.replicate (RING_SIZE + 10)
          (⟨false, false, true, true, 0x85, 0, 0x3F⟩ : BusCycle)).map Action.bus)).enqueued.length
      = RING_SIZE + 10
    ∧ (pendingEvents (run false (Trace.start (startState 0))
        ((List.replicate (RING_SIZE + 10)
          (⟨false, false, true, true, 0x85, 0, 0x3F⟩ : BusCycle)).map Action.bus)).state).length
      = 10
    ∧ (run false (Trace.start (startState 0))
        ((List.replicate (RING_SIZE + 10)
          (⟨false, false, true, true, 0x85, 0, 0x3F⟩ : BusCycle)).map Action.bus)).state.ringRead
      = 0
    ∧ (pendingEvents (run false (Trace.start (startState 0))
        ((List.replicate (RING_SIZE + 10)
          (⟨false, false, true, true, 0x85, 0, 0x3F⟩ : BusCycle)).map Action.bus)).state).length
      ≠ RING_SIZE := by
  have h := writes_wrap false (startState 0)
    (List.replicate (RING_SIZE + 10) (⟨false, false, true, true, 0x85, 0, 0x3F⟩ : BusCycle))
    (by decide) (by decide)
    (by
      intro b hb
      rw [List.eq_of_mem_replicate hb]
      exact ⟨⟨rfl, rfl, rfl⟩, by decide⟩)
  rw [List.length_replicate, wrap_arith.1] at h
  refine ⟨h.2.1, h.2.2.2.1, h.1, ?_⟩
  rw [h.2.2.2.1, RING_SIZE_eq]
  decide

end Sidekick64
